import Mathlib

/-
Verification of the electrs indexing/query schema (`src/new_index/schema.rs`).

Shallow embedding conventions:
- 32-byte hashes (`FullHash`, `Txid`, `BlockHash`) are represented by their
  big-endian numeric value, a `Nat` below `2 ^ 256`.
- `usize` arithmetic is `Nat` with explicit wrap-around modulo `2 ^ 64`
  where the source can overflow.
- Fallible lookups return `Option`; a Rust `panic!`/`expect` that a query
  method can hit on a corrupt store is modelled by an outer `Option`
  (`none` = process abort), while recoverable errors use `Except`.
- The ordered KV store is modelled per row family: rows of one scan prefix
  are kept as a `List` in ascending key order, reverse scans reverse it.
-/

set_option autoImplicit false
set_option maxRecDepth 100000

/-- `usize::MAX + 1`: modulus of 64-bit machine arithmetic. -/
def USIZE : Nat := 2 ^ 64

/-- Wrapping `usize` subtraction `a - b` (release-build Rust semantics). -/
def usizeSub (a b : Nat) : Nat := (a % USIZE + (USIZE - b % USIZE)) % USIZE

theorem usizeSub_of_le {a b : Nat} (hb : b ≤ a) (ha : a < USIZE) :
    usizeSub a b = a - b := by
  unfold usizeSub
  have hbU : b < USIZE := lt_of_le_of_lt hb ha
  rw [Nat.mod_eq_of_lt ha, Nat.mod_eq_of_lt hbU]
  have h1 : a + (USIZE - b) = (a - b) + USIZE := by omega
  rw [h1, Nat.add_mod_right, Nat.mod_eq_of_lt (by omega)]

theorem usizeSub_of_lt {a b : Nat} (hab : a < b) (hb : b < USIZE) :
    usizeSub a b = a + (USIZE - b) := by
  unfold usizeSub
  have haU : a < USIZE := lt_trans hab hb
  rw [Nat.mod_eq_of_lt haU, Nat.mod_eq_of_lt hb, Nat.mod_eq_of_lt (by omega)]

/-- An opaque block header payload: the timestamp plus the rest of the
serialized header content, which the queries never inspect. -/
structure Header where
  time : Nat
  rest : Nat
deriving DecidableEq

/-- `HeaderEntry`: an entry of the in-memory best-chain header list. -/
structure HeaderEntry where
  height : Nat
  hash : Nat
  header : Header
deriving DecidableEq

/-- `BlockId`: (height, hash, time) tag attached to query results. -/
structure BlockId where
  height : Nat
  hash : Nat
  time : Nat
deriving DecidableEq

/-- `BlockId::from(&HeaderEntry)`. -/
def BlockId.ofEntry (e : HeaderEntry) : BlockId :=
  { height := e.height, hash := e.hash, time := e.header.time }

/-- `FetchFrom`: the bulk fetch source used by the indexer. -/
inductive FetchFrom where
  | Bitcoind
  | BlkFiles
  | BlkFilesReverse
deriving DecidableEq

/-- `Indexer::get_headers_to_use` (schema.rs:313-337). `src` is the current
`self.from`; `all_indexed_headers` is the indexed header list read by
`get_all_indexed_headers`. Returns the chosen headers and the new `self.from`.
Both `usize` subtractions of the source are modelled with wrap-around. -/
def get_headers_to_use (lookup_len : Nat) (new_headers : List HeaderEntry)
    (start_height : Nat) (src : FetchFrom) (all_indexed_headers : List HeaderEntry) :
    List HeaderEntry × FetchFrom :=
  let count_total_indexed := usizeSub all_indexed_headers.length start_height
  if lookup_len < count_total_indexed then
    let count_left_to_index := usizeSub lookup_len count_total_indexed
    let src' :=
      if src = FetchFrom.BlkFiles ∧
          count_left_to_index < all_indexed_headers.length / 2 then
        FetchFrom.BlkFilesReverse
      else src
    (all_indexed_headers, src')
  else
    (new_headers, src)

/-- Ten dummy indexed headers used as a concrete input for the
fetch-source heuristic. -/
def tenHeaders : List HeaderEntry :=
  (List.range 10).map (fun i => { height := i, hash := 100 + i, header := ⟨0, 0⟩ })

/-- `FundingInfo` of a history row (all hashes numeric, `vout : u16`). -/
structure FundingInfo where
  txid : Nat
  vout : Nat
  value : Nat
deriving DecidableEq

/-- `SpendingInfo` of a history row. -/
structure SpendingInfo where
  txid : Nat
  vin : Nat
  prev_txid : Nat
  prev_vout : Nat
  value : Nat
deriving DecidableEq

/-- `TxHistoryInfo` (bitcoin build: `Funding` and `Spending` only). -/
inductive TxHistoryInfo where
  | Funding (info : FundingInfo)
  | Spending (info : SpendingInfo)
deriving DecidableEq

/-- `TxHistoryInfo::get_txid`. -/
def TxHistoryInfo.get_txid : TxHistoryInfo → Nat
  | .Funding info => info.txid
  | .Spending info => info.txid

/-- `OutPoint`: (txid, vout). -/
structure OutPoint where
  txid : Nat
  vout : Nat
deriving DecidableEq

/-- `TxHistoryInfo::get_funded_outpoint`: the funded output for funding rows,
the spent previous output for spending rows. -/
def TxHistoryInfo.get_funded_outpoint : TxHistoryInfo → OutPoint
  | .Funding info => ⟨info.txid, info.vout⟩
  | .Spending info => ⟨info.prev_txid, info.prev_vout⟩

/-- `TxHistoryKey`: key of an `H` history row. -/
structure TxHistoryKey where
  code : Nat
  hash : Nat
  confirmed_height : Nat
  txinfo : TxHistoryInfo
deriving DecidableEq

/-- `TxHistoryRow` (the value part of a history row is empty). -/
structure TxHistoryRow where
  key : TxHistoryKey
deriving DecidableEq

/-- `TxHistoryRow::get_txid`. -/
def TxHistoryRow.get_txid (r : TxHistoryRow) : Nat := r.key.txinfo.get_txid

/-- `TxHistoryRow::get_funded_outpoint`. -/
def TxHistoryRow.get_funded_outpoint (r : TxHistoryRow) : OutPoint :=
  r.key.txinfo.get_funded_outpoint

/-- `ScriptStats` (bitcoin build). -/
structure ScriptStats where
  tx_count : Nat
  funded_txo_count : Nat
  spent_txo_count : Nat
  funded_txo_sum : Nat
  spent_txo_sum : Nat
deriving DecidableEq

/-- `ScriptStats::default`. -/
def ScriptStats.default : ScriptStats := ⟨0, 0, 0, 0, 0⟩

/-- `BlockMeta` stored at `M{blockhash}`. -/
structure BlockMeta where
  tx_count : Nat
  size : Nat
  weight : Nat
deriving DecidableEq

/-- `CachedUtxoMap`: `(txid, vout) → (block_height, output_value)`. -/
abbrev CachedUtxoMap := List ((Nat × Nat) × (Nat × Nat))

/-- The read-side state a `ChainQuery` sees: the best-chain header list
(position = height) and the row families of the four KV namespaces, each
presented per scan prefix in ascending key order. Daemon oracles model the
light-mode RPC fallbacks. -/
structure QStore where
  headers : List (Nat × Header)
  confRows : Nat → List Nat
  txRows : Nat → Option (List Nat)
  txidRows : Nat → Option (List Nat)
  metaRows : Nat → Option BlockMeta
  histRows : Nat → List TxHistoryRow
  utxoCache : Nat → Option (CachedUtxoMap × Nat)
  statsCache : Nat → Option (ScriptStats × Nat)
  light_mode : Bool
  daemonTx : Nat → Nat → Option (List Nat)
  daemonBlockRaw : Nat → Option (List Nat)
  daemonBlockTxids : Nat → Option (List Nat)
  daemonBlockMeta : Nat → Option BlockMeta

/-- The in-memory header list as `HeaderEntry` values (heights are the
positions, mirroring the contiguity invariant of `HeaderList`). -/
def headerEntries (s : QStore) : List HeaderEntry :=
  s.headers.enum.map (fun p => { height := p.1, hash := p.2.1, header := p.2.2 })

/-- `HeaderList::header_by_blockhash` (via `ChainQuery::header_by_hash`):
`some` exactly for best-chain hashes, first matching height. -/
def headerByBlockhash (s : QStore) (bh : Nat) : Option HeaderEntry :=
  (headerEntries s).find? (fun e => e.hash = bh)

/-- `ChainQuery::height_by_hash`. -/
def height_by_hash (s : QStore) (bh : Nat) : Option Nat :=
  (headerByBlockhash s bh).map (fun e => e.height)

/-- `HeaderList::header_by_height` clone (via `ChainQuery::header_by_height`). -/
def headerByHeight (s : QStore) (height : Nat) : Option HeaderEntry :=
  (headerEntries s).get? height

/-- `ChainQuery::blockid_by_height`. -/
def blockid_by_height (s : QStore) (height : Nat) : Option BlockId :=
  (headerByHeight s height).map BlockId.ofEntry

/-- `ChainQuery::tx_confirming_block`: scan the `C{txid}` rows, keep the
first whose blockhash is on the best chain, return its `BlockId`. -/
def tx_confirming_block (s : QStore) (txid : Nat) : Option BlockId :=
  (((s.confRows txid).filterMap (fun bh => headerByBlockhash s bh)).head?).map
    BlockId.ofEntry

/-- `UtxoMap`: `OutPoint → (BlockId, value)`, as an association list with
the keys kept distinct by `umInsert` (modelling `HashMap`; only size and
membership are observable to the claims). -/
abbrev UtxoMap := List (OutPoint × (BlockId × Nat))

/-- Key membership test of a `UtxoMap`. -/
def umHasKey (m : UtxoMap) (k : OutPoint) : Bool :=
  m.any (fun p => p.1 = k)

/-- `HashMap::insert`: overwrite the binding if the key is present,
otherwise add it. -/
def umInsert (m : UtxoMap) (k : OutPoint) (v : BlockId × Nat) : UtxoMap :=
  if umHasKey m k then m.map (fun p => if p.1 = k then (k, v) else p)
  else m ++ [(k, v)]

/-- `HashMap::remove`. -/
def umRemove (m : UtxoMap) (k : OutPoint) : UtxoMap :=
  m.filter (fun p => ¬ p.1 = k)

/-- `MIN_HISTORY_ITEMS_TO_CACHE` (schema.rs:46). -/
def MIN_HISTORY_ITEMS_TO_CACHE : Nat := 100

/-- `u32::MAX`, the height placed in the reverse-scan end key. -/
def U32MAX : Nat := 2 ^ 32 - 1

/-- `ChainQuery::history_iter_scan`: forward scan of `H{scripthash}` rows
starting at the key prefix for `start_height`. On the ascending-key row
list this drops the rows below `start_height`. -/
def historyScanFrom (s : QStore) (scripthash : Nat) (start_height : Nat) :
    List TxHistoryRow :=
  (s.histRows scripthash).dropWhile (fun r => r.key.confirmed_height < start_height)

/-- `ChainQuery::history_iter_scan_reverse`: reverse scan of
`H{scripthash}` rows up to the end key at height `u32::MAX` (whose proper
extensions sort above it, so `u32::MAX` rows are excluded). -/
def histScanReverse (s : QStore) (scripthash : Nat) : List TxHistoryRow :=
  ((s.histRows scripthash).filter
    (fun r => r.key.confirmed_height < U32MAX)).reverse

/-- The history rows surviving the best-chain filter of
`ChainQuery::utxo_delta`, paired with their confirming blocks. -/
def utxoScanRows (s : QStore) (scripthash : Nat) (start_height : Nat) :
    List (TxHistoryRow × BlockId) :=
  (historyScanFrom s scripthash start_height).filterMap
    (fun h => (tx_confirming_block s h.get_txid).map (fun b => (h, b)))

/-- The history rows surviving the best-chain AND height-match filters of
`ChainQuery::stats_delta`. -/
def statsScanRows (s : QStore) (scripthash : Nat) (start_height : Nat) :
    List (TxHistoryRow × BlockId) :=
  (historyScanFrom s scripthash start_height).filterMap
    (fun h =>
      match tx_confirming_block s h.get_txid with
      | none => none
      | some b =>
        if b.height = h.key.confirmed_height then some (h, b) else none)

/-- The query errors surfaced to callers. -/
inductive QueryError where
  | TooPopular
deriving DecidableEq

/-- One step of the `utxo_delta` loop body (the `match history.key.txinfo`
of schema.rs:886-896): funding inserts the funded outpoint, spending
removes it. -/
def applyHistoryRow (m : UtxoMap) (hb : TxHistoryRow × BlockId) : UtxoMap :=
  match hb.1.key.txinfo with
  | .Funding info => umInsert m hb.1.get_funded_outpoint (hb.2, info.value)
  | .Spending _ => umRemove m hb.1.get_funded_outpoint

/-- The per-row loop of `ChainQuery::utxo_delta` (schema.rs:882-902):
count the row, remember its block, apply funding/spending to the map and
bail out with `TooPopular` as soon as the map exceeds `limit`. -/
def utxoDeltaLoop (limit : Nat) :
    List (TxHistoryRow × BlockId) → UtxoMap → Nat → Option Nat →
    Except QueryError (UtxoMap × Option Nat × Nat)
  | [], utxos, processed_items, lastblock => .ok (utxos, lastblock, processed_items)
  | hb :: rest, utxos, processed_items, _ =>
    let utxos' := applyHistoryRow utxos hb
    if limit < utxos'.length then .error .TooPopular
    else utxoDeltaLoop limit rest utxos' (processed_items + 1) (some hb.2.hash)

/-- `ChainQuery::utxo_delta` (schema.rs:862-905). -/
def utxo_delta (s : QStore) (scripthash : Nat) (init_utxos : UtxoMap)
    (start_height limit : Nat) : Except QueryError (UtxoMap × Option Nat × Nat) :=
  utxoDeltaLoop limit (utxoScanRows s scripthash start_height) init_utxos 0 none

/-- All-or-nothing traversal of a list under a fallible map (explicit
`Option` monad `mapM`, kept first-order for the proofs). -/
def mapOption {α β : Type} (f : α → Option β) : List α → Option (List β)
  | [] => some []
  | a :: l =>
    match f a, mapOption f l with
    | some b, some bs => some (b :: bs)
    | _, _ => none

/-- `from_utxo_cache`: rebuild a `UtxoMap` from a `CachedUtxoMap`,
re-deriving each `BlockId` from the header list; `none` models the
`expect("missing blockheader for valid utxo cache entry")` panic. -/
def from_utxo_cache (s : QStore) (cm : CachedUtxoMap) : Option UtxoMap :=
  mapOption (fun e =>
    (blockid_by_height s e.2.1).map (fun b => (⟨e.1.1, e.1.2⟩, (b, e.2.2)))) cm

/-- The cache resolution of `ChainQuery::utxo` (schema.rs:807-816): read
the `U{scripthash}` row, drop it if its tip hash left the best chain,
rebuild the map. Outer `none` = panic inside `from_utxo_cache`; inner
`none` = no usable cache. -/
def resolveUtxoCache (s : QStore) (scripthash : Nat) :
    Option (Option (UtxoMap × Nat)) :=
  match s.utxoCache scripthash with
  | none => some none
  | some (cm, bh) =>
    match height_by_hash s bh with
    | none => some none
    | some height => (from_utxo_cache s cm).map (fun m => some (m, height))

/-- The `cache.map_or_else(..)` dispatch of `ChainQuery::utxo`
(schema.rs:820-823). -/
def utxoDeltaDispatch (s : QStore) (scripthash : Nat) (limit : Nat) :
    Option (UtxoMap × Nat) → Except QueryError (UtxoMap × Option Nat × Nat)
  | none => utxo_delta s scripthash [] 0 limit
  | some (oldutxos, blockheight) =>
    utxo_delta s scripthash oldutxos (blockheight + 1) limit

/-- A returned `Utxo` value (bitcoin build fields). -/
structure UtxoItem where
  txid : Nat
  vout : Nat
  value : Nat
  confirmed : Option BlockId
deriving DecidableEq

/-- The outcome of a successful `ChainQuery::utxo` call: the formatted
`Utxo` list plus the `U{scripthash}` cache row written, if any. -/
structure UtxoOk where
  utxos : List UtxoItem
  cacheWrite : Option (UtxoMap × Nat)
deriving DecidableEq

/-- `ChainQuery::utxo` (schema.rs:802-860). Outer `none` models the
`from_utxo_cache` panic on a corrupt cache row. -/
def utxo (s : QStore) (scripthash : Nat) (limit : Nat) :
    Option (Except QueryError UtxoOk) :=
  match resolveUtxoCache s scripthash with
  | none => none
  | some cache =>
    let had_cache := cache.isSome
    some <|
      match utxoDeltaDispatch s scripthash limit cache with
      | .error e => .error e
      | .ok (newutxos, lastblock, processed_items) =>
        let cacheWrite :=
          match lastblock with
          | some lb =>
            if had_cache || decide (MIN_HISTORY_ITEMS_TO_CACHE < processed_items)
            then some (newutxos, lb) else none
          | none => none
        .ok { utxos := newutxos.map
                (fun p => { txid := p.1.txid, vout := p.1.vout,
                            value := p.2.2, confirmed := some p.2.1 }),
              cacheWrite := cacheWrite }

/-- The seen-set reset of `stats_delta` (schema.rs:964-966): cleared on
every transition to a row confirmed in a different block. -/
def statsSeenReset (seen_txids : List Nat) (lastblock : Option Nat)
    (b : BlockId) : List Nat :=
  if lastblock ≠ some b.hash then [] else seen_txids

/-- The funding/spending counter bump of `stats_delta`
(schema.rs:972-1000). -/
def statsBump (stats : ScriptStats) (h : TxHistoryRow) : ScriptStats :=
  match h.key.txinfo with
  | .Funding info =>
    { stats with funded_txo_count := stats.funded_txo_count + 1,
                 funded_txo_sum := stats.funded_txo_sum + info.value }
  | .Spending info =>
    { stats with spent_txo_count := stats.spent_txo_count + 1,
                 spent_txo_sum := stats.spent_txo_sum + info.value }

/-- The per-row loop of `ChainQuery::stats_delta` (schema.rs:963-1003):
clear the seen-txid set on every block transition, count each unseen txid
once (`HashSet::insert` returning true), then bump the counters. -/
def statsDeltaLoop :
    List (TxHistoryRow × BlockId) → ScriptStats → List Nat → Option Nat →
    ScriptStats × Option Nat
  | [], stats, _, lastblock => (stats, lastblock)
  | hb :: rest, stats, seen_txids, lastblock =>
    let seen0 := statsSeenReset seen_txids lastblock hb.2
    let isNew : Bool := decide (hb.1.get_txid ∉ seen0)
    let seen1 := if isNew then hb.1.get_txid :: seen0 else seen0
    let stats1 :=
      if isNew then { stats with tx_count := stats.tx_count + 1 } else stats
    statsDeltaLoop rest (statsBump stats1 hb.1) seen1 (some hb.2.hash)

/-- `ChainQuery::stats_delta` (schema.rs:941-1006). -/
def stats_delta (s : QStore) (scripthash : Nat) (init_stats : ScriptStats)
    (start_height : Nat) : ScriptStats × Option Nat :=
  statsDeltaLoop (statsScanRows s scripthash start_height) init_stats [] none

/-- The cache resolution of `ChainQuery::stats` (schema.rs:912-920). -/
def resolveStatsCache (s : QStore) (scripthash : Nat) :
    Option (ScriptStats × Nat) :=
  (s.statsCache scripthash).bind (fun c =>
    (height_by_hash s c.2).map (fun height => (c.1, height)))

/-- `ChainQuery::stats` (schema.rs:907-939): the returned stats plus the
`A{scripthash}` cache row written, if any. -/
def stats (s : QStore) (scripthash : Nat) :
    ScriptStats × Option (ScriptStats × Nat) :=
  let cache := resolveStatsCache s scripthash
  let res :=
    match cache with
    | none => stats_delta s scripthash ScriptStats.default 0
    | some (oldstats, blockheight) =>
      stats_delta s scripthash oldstats (blockheight + 1)
  let cacheWrite :=
    match res.2 with
    | some lastblock =>
      if MIN_HISTORY_ITEMS_TO_CACHE <
          res.1.funded_txo_count + res.1.spent_txo_count
      then some (res.1, lastblock) else none
    | none => none
  (res.1, cacheWrite)

/-- `ChainQuery::lookup_raw_txn` (schema.rs:1121-1138). In light mode the
bytes come from the daemon, keyed by the explicit blockhash or, failing
that, by the confirming block; otherwise from the `T{txid}` row. -/
def lookup_raw_txn (s : QStore) (txid : Nat) (blockhash : Option Nat) :
    Option (List Nat) :=
  if s.light_mode then
    let queried_blockhash :=
      match blockhash with
      | some _ => none
      | none => (tx_confirming_block s txid).map (fun b => b.hash)
    match blockhash.or queried_blockhash with
    | none => none
    | some bh => s.daemonTx txid bh
  else s.txRows txid

/-- Outcome of `ChainQuery::lookup_txn`: `missing` when the raw bytes are
absent, `assertFailed` when the `assert_eq!(*txid, txn.txid())` panic
fires, otherwise the parsed transaction. -/
inductive TxnLookup (Tx : Type) where
  | missing
  | assertFailed
  | found (txn : Tx)
deriving DecidableEq

/-- `ChainQuery::lookup_txn` (schema.rs:1112-1119), generic over the chain
codec: `deser` parses raw bytes (decode panics are out of scope, the
database invariant assumes rows parse) and `txidOf` computes `txn.txid()`. -/
def lookup_txn {Tx : Type} (deser : List Nat → Tx) (txidOf : Tx → Nat)
    (s : QStore) (txid : Nat) (blockhash : Option Nat) : TxnLookup Tx :=
  match lookup_raw_txn s txid blockhash with
  | none => .missing
  | some rawtx =>
    let txn := deser rawtx
    if txidOf txn = txid then .found txn else .assertFailed

/-- `ChainQuery::lookup_txns` (schema.rs:1101-1110): bulk-load the bodies
of `(txid, blockid)` pairs; `none` models the abnormal outcomes (the
`Err("missing tx")` that `_history` unwraps with `expect`, and the txid
assertion panic inside `lookup_txn`). -/
def lookup_txns {Tx : Type} (deser : List Nat → Tx) (txidOf : Tx → Nat)
    (s : QStore) : List (Nat × BlockId) → Option (List Tx)
  | [] => some []
  | (txid, blockid) :: rest =>
    match lookup_txn deser txidOf s txid (some blockid.hash) with
    | .found txn => (lookup_txns deser txidOf s rest).map (fun l => txn :: l)
    | _ => none

/-- `Itertools::unique`: keep the first occurrence of every element
(`seen` is the accumulated hash set). -/
def uniqueFirstAux : List Nat → List Nat → List Nat
  | [], _ => []
  | a :: l, seen =>
    if a ∈ seen then uniqueFirstAux l seen
    else a :: uniqueFirstAux l (a :: seen)

/-- `Itertools::unique` over txids, preserving first occurrences. -/
def uniqueFirst (l : List Nat) : List Nat := uniqueFirstAux l []

/-- The `skip_while`/`skip` cursor logic of `ChainQuery::_history`
(schema.rs:716-723): with `some t`, drop everything up to and including
the first occurrence of `t`; with `none`, keep the stream whole. -/
def skipUntilPast (last_seen_txid : Option Nat) (txids : List Nat) : List Nat :=
  match last_seen_txid with
  | none => txids
  | some t => ((txids.dropWhile (fun txid => txid ≠ t)).drop 1)

/-- The `txs_conf` pipeline of `ChainQuery::_history` (schema.rs:710-726):
reverse scan, dedup, cursor skip, best-chain filter, `take limit`. -/
def historyTxsConf (s : QStore) (scripthash : Nat)
    (last_seen_txid : Option Nat) (limit : Nat) : List (Nat × BlockId) :=
  ((skipUntilPast last_seen_txid
      (uniqueFirst ((histScanReverse s scripthash).map TxHistoryRow.get_txid))).filterMap
    (fun txid => (tx_confirming_block s txid).map (fun b => (txid, b)))).take limit

/-- `ChainQuery::_history` / `ChainQuery::history` (schema.rs:692-734):
the txid pipeline followed by the bulk body lookup and the zip that pairs
each body with its confirming block. -/
def history {Tx : Type} (deser : List Nat → Tx) (txidOf : Tx → Nat)
    (s : QStore) (scripthash : Nat) (last_seen_txid : Option Nat)
    (limit : Nat) : Option (List (Tx × BlockId)) :=
  let txs_conf := historyTxsConf s scripthash last_seen_txid limit
  (lookup_txns deser txidOf s txs_conf).map
    (fun txs => (txs.zip txs_conf).map (fun p => (p.1, p.2.2)))

/-- `ChainQuery::_history_txids` / `history_txids` (schema.rs:736-749):
forward scan from height 0, dedup, best-chain filter, `take limit`. -/
def history_txids (s : QStore) (scripthash : Nat) (limit : Nat) :
    List (Nat × BlockId) :=
  ((uniqueFirst ((historyScanFrom s scripthash 0).map TxHistoryRow.get_txid)).filterMap
    (fun txid => (tx_confirming_block s txid).map (fun b => (txid, b)))).take limit

/-- `ChainQuery::get_block_txids` (schema.rs:602-615). -/
def get_block_txids (s : QStore) (bh : Nat) : Option (List Nat) :=
  if s.light_mode then s.daemonBlockTxids bh else s.txidRows bh

/-- `ChainQuery::get_block_meta` (schema.rs:617-629). -/
def get_block_meta (s : QStore) (bh : Nat) : Option BlockMeta :=
  if s.light_mode then s.daemonBlockMeta bh else s.metaRows bh

/-- Little-endian fixed-width byte encoding of a `Nat`. -/
def natToBytesLE : Nat → Nat → List Nat
  | 0, _ => []
  | w + 1, n => n % 256 :: natToBytesLE w (n / 256)

/-- Modelled from the spec: the bitcoin consensus `VarInt` (CompactSize)
codec used for the tx-count of a reconstructed block lives in the external
chain library; the spec only states `varint(tx_count)`. -/
def varint (n : Nat) : List Nat :=
  if n < 0xFD then [n]
  else if n < 0x10000 then 0xFD :: natToBytesLE 2 n
  else if n < 0x100000000 then 0xFE :: natToBytesLE 4 n
  else 0xFF :: natToBytesLE 8 n

/-- The raw-tx concatenation loop of `ChainQuery::get_block_raw`
(schema.rs:650-653): append each listed transaction's raw bytes, failing
as soon as one `lookup_raw_txn` misses. -/
def appendRawTxs (s : QStore) : List Nat → List Nat → Option (List Nat)
  | [], raw => some raw
  | txid :: rest, raw =>
    match lookup_raw_txn s txid none with
    | none => none
    | some rawtx => appendRawTxs s rest (raw ++ rawtx)

/-- `ChainQuery::get_block_raw` (schema.rs:631-657), generic over the
header serializer `serHeader` (the chain codec is external). -/
def get_block_raw (serHeader : Header → List Nat) (s : QStore) (bh : Nat) :
    Option (List Nat) :=
  if s.light_mode then s.daemonBlockRaw bh
  else
    match headerByBlockhash s bh with
    | none => none
    | some entry =>
      match get_block_meta s bh with
      | none => none
      | some _meta =>
        match get_block_txids s bh with
        | none => none
        | some txids =>
          appendRawTxs s txids (serHeader entry.header ++ varint txids.length)

/-- Big-endian fixed-width byte encoding of a `Nat` (most significant
byte first). -/
def natToBytesBE : Nat → Nat → List Nat
  | 0, _ => []
  | w + 1, n => (n / 256 ^ w) % 256 :: natToBytesBE w (n % 256 ^ w)

/-- Modelled from the spec: the `bincode::serialize_big` codec (crate
module `util::bincode`, not under src/) writes struct fields in
declaration order with fixed widths, all integers big-endian, and an enum
variant as its `u32` index followed by the variant fields. Layout of
`TxHistoryInfo` per schema.rs:1781-1810. -/
def encodeTxHistoryInfo : TxHistoryInfo → List Nat
  | .Funding info =>
    natToBytesBE 4 0 ++ natToBytesBE 32 info.txid ++ natToBytesBE 2 info.vout ++
      natToBytesBE 8 info.value
  | .Spending info =>
    natToBytesBE 4 1 ++ natToBytesBE 32 info.txid ++ natToBytesBE 2 info.vin ++
      natToBytesBE 32 info.prev_txid ++ natToBytesBE 2 info.prev_vout ++
      natToBytesBE 8 info.value

/-- Modelled from the spec: `TxHistoryRow::into_row` serializes
`TxHistoryKey` (schema.rs:1829-1834) with `bincode::serialize_big`, so the
`confirmed_height : u32` field is big-endian as its comment demands. -/
def encodeTxHistoryKey (k : TxHistoryKey) : List Nat :=
  natToBytesBE 1 k.code ++ natToBytesBE 32 k.hash ++
    natToBytesBE 4 k.confirmed_height ++ encodeTxHistoryInfo k.txinfo

/-- Strict byte-lexicographic order on keys, the order of the KV store
scans (a proper prefix sorts before its extensions). -/
def keyLt (a b : List Nat) : Prop := List.Lex (· < ·) a b

instance (a b : List Nat) : Decidable (keyLt a b) := by
  unfold keyLt
  infer_instance

/-- C1 counterexample. At `lookup_len = 9`, ten indexed headers,
`start_height = 0` and source `BlkFiles`: the guard
`count_total_indexed > lookup_len` holds, so the subtraction
`lookup_len - count_total_indexed` is evaluated although its integer value
is negative — it underflows on every execution of this branch, wrapping to
`2^64 - 1`. The claimed switch condition (read with actual integers) is
satisfied, yet the source is not switched. -/
theorem c1_counterexample :
    (get_headers_to_use 9 [] 0 FetchFrom.BlkFiles tenHeaders).2 = FetchFrom.BlkFiles
    ∧ 9 < usizeSub tenHeaders.length 0
    ∧ ((9 : Int) - (usizeSub tenHeaders.length 0 : Int)
         < (tenHeaders.length : Int) / 2)
    ∧ usizeSub 9 (usizeSub tenHeaders.length 0) = USIZE - 1 := by
  refine ⟨by decide, by decide, by decide, by decide⟩

/-- C1 (amended): whenever `count_total_indexed > lookup_len`,
`get_headers_to_use` returns the full indexed header list; the subtraction
`lookup_len - count_total_indexed` underflows on every such call (its
operands satisfy `lookup_len < count_total_indexed`), wrapping to
`lookup_len + 2^64 - count_total_indexed`; and when the source is
`BlkFiles` it switches to `BlkFilesReverse` exactly when that wrapped
value is below half the indexed header-list length. -/
theorem c1_fetch_source_heuristic (lookup_len start_height : Nat)
    (src : FetchFrom) (new_headers all : List HeaderEntry)
    (hlen : all.length < USIZE) (hstart : start_height ≤ all.length)
    (hguard : lookup_len < all.length - start_height) :
    (get_headers_to_use lookup_len new_headers start_height src all).1 = all
    ∧ lookup_len < all.length - start_height
    ∧ usizeSub lookup_len (all.length - start_height)
        = lookup_len + (USIZE - (all.length - start_height))
    ∧ (get_headers_to_use lookup_len new_headers start_height src all).2
        = (if src = FetchFrom.BlkFiles ∧
              lookup_len + (USIZE - (all.length - start_height)) < all.length / 2
           then FetchFrom.BlkFilesReverse else src) := by
  have hcount : usizeSub all.length start_height = all.length - start_height :=
    usizeSub_of_le hstart hlen
  have hcl : usizeSub lookup_len (all.length - start_height)
      = lookup_len + (USIZE - (all.length - start_height)) :=
    usizeSub_of_lt hguard (lt_of_le_of_lt (Nat.sub_le _ _) hlen)
  refine ⟨?_, hguard, hcl, ?_⟩ <;>
    simp only [get_headers_to_use, hcount, hcl, if_pos hguard]

/-- C1 witness: the amended heuristic theorem at the concrete
counterexample input. -/
theorem c1_fetch_source_heuristic_witness :
    (get_headers_to_use 9 [] 0 FetchFrom.BlkFiles tenHeaders).1 = tenHeaders
    ∧ 9 < tenHeaders.length - 0
    ∧ usizeSub 9 (tenHeaders.length - 0)
        = 9 + (USIZE - (tenHeaders.length - 0))
    ∧ (get_headers_to_use 9 [] 0 FetchFrom.BlkFiles tenHeaders).2
        = (if FetchFrom.BlkFiles = FetchFrom.BlkFiles ∧
              9 + (USIZE - (tenHeaders.length - 0)) < tenHeaders.length / 2
           then FetchFrom.BlkFilesReverse else FetchFrom.BlkFiles) :=
  c1_fetch_source_heuristic 9 0 FetchFrom.BlkFiles [] tenHeaders
    (by decide) (by decide) (by decide)

/-- Auxiliary: the head of a `filterMap` is `some y` exactly when the list
splits as a prefix mapped to `none`, then an element mapped to `some y`. -/
theorem head_filterMap_some {α β : Type} (f : α → Option β) (l : List α)
    (y : β) :
    (l.filterMap f).head? = some y ↔
      ∃ l1 x l2, l = l1 ++ x :: l2 ∧ (∀ z ∈ l1, f z = none) ∧ f x = some y := by
  induction l with
  | nil =>
    simp only [List.filterMap_nil, List.head?_nil]
    constructor
    · intro h
      exact absurd h (by simp)
    · rintro ⟨l1, x, l2, h, -, -⟩
      exact absurd h (by simp)
  | cons a l ih =>
    rw [List.filterMap_cons]
    cases hfa : f a with
    | some b =>
      simp only [List.head?_cons, Option.some_inj]
      constructor
      · intro h
        exact ⟨[], a, l, rfl, by simp, by rw [hfa, h]⟩
      · rintro ⟨l1, x, l2, hsplit, hnone, hx⟩
        cases l1 with
        | nil =>
          simp only [List.nil_append, List.cons.injEq] at hsplit
          rw [← hsplit.1] at hx
          rw [hfa] at hx
          exact Option.some_inj.mp hx
        | cons c l1 =>
          simp only [List.cons_append, List.cons.injEq] at hsplit
          have hcn : f a = none := hsplit.1 ▸ hnone c (by simp)
          rw [hfa] at hcn
          exact absurd hcn (by simp)
    | none =>
      rw [ih]
      constructor
      · rintro ⟨l1, x, l2, hsplit, hnone, hx⟩
        refine ⟨a :: l1, x, l2, by simp [hsplit], ?_, hx⟩
        intro z hz
        rcases List.mem_cons.mp hz with h | h
        · rw [h, hfa]
        · exact hnone z h
      · rintro ⟨l1, x, l2, hsplit, hnone, hx⟩
        cases l1 with
        | nil =>
          simp only [List.nil_append, List.cons.injEq] at hsplit
          rw [← hsplit.1] at hx
          rw [hfa] at hx
          exact absurd hx (by simp)
        | cons c l1 =>
          simp only [List.cons_append, List.cons.injEq] at hsplit
          exact ⟨l1, x, l2, hsplit.2, fun z hz => hnone z (by simp [hz]), hx⟩

/-- C8: `tx_confirming_block` returns `some b` exactly when the first
`C{txid}` row whose blockhash is on the best chain exists and `b` is the
`BlockId` of its header entry; it returns `none` exactly when no `C` row
for the txid refers to a best-chain block — the orphaned-only case is a
`None` return, not an error. -/
theorem c8_tx_confirming_block (s : QStore) (txid : Nat) :
    (∀ b, tx_confirming_block s txid = some b ↔
      ∃ l1 bh l2, s.confRows txid = l1 ++ bh :: l2
        ∧ (∀ z ∈ l1, headerByBlockhash s z = none)
        ∧ ∃ e, headerByBlockhash s bh = some e ∧ b = BlockId.ofEntry e)
    ∧ (tx_confirming_block s txid = none ↔
      ∀ bh ∈ s.confRows txid, headerByBlockhash s bh = none) := by
  constructor
  · intro b
    unfold tx_confirming_block
    rw [Option.map_eq_some']
    constructor
    · rintro ⟨e, he, hb⟩
      rcases (head_filterMap_some _ _ _).mp he with ⟨l1, x, l2, hsplit, hnone, hx⟩
      exact ⟨l1, x, l2, hsplit, hnone, e, hx, hb.symm⟩
    · rintro ⟨l1, bh, l2, hsplit, hnone, e, he, hb⟩
      exact ⟨e, (head_filterMap_some _ _ _).mpr ⟨l1, bh, l2, hsplit, hnone, he⟩,
        hb.symm⟩
  · unfold tx_confirming_block
    rw [Option.map_eq_none', List.head?_eq_none_iff, List.filterMap_eq_nil_iff]

/-- A store with nothing in it, used as the base of the concrete stores of
the witnesses and counterexamples. -/
def emptyStore : QStore where
  headers := []
  confRows := fun _ => []
  txRows := fun _ => none
  txidRows := fun _ => none
  metaRows := fun _ => none
  histRows := fun _ => []
  utxoCache := fun _ => none
  statsCache := fun _ => none
  light_mode := false
  daemonTx := fun _ _ => none
  daemonBlockRaw := fun _ => none
  daemonBlockTxids := fun _ => none
  daemonBlockMeta := fun _ => none

/-- Concrete store for the C8 witness: txid 5 is confirmed in block 30
(orphaned) and in block 20 (best chain, height 0). -/
def c8store : QStore :=
  { emptyStore with
      headers := [(20, ⟨7, 0⟩)],
      confRows := fun txid => if txid = 5 then [30, 20] else [] }

/-- C8 witness: the characterization theorem at a concrete store where the
first `C` row is orphaned and the second is on the best chain. -/
theorem c8_tx_confirming_block_witness :
    (∀ b, tx_confirming_block c8store 5 = some b ↔
      ∃ l1 bh l2, c8store.confRows 5 = l1 ++ bh :: l2
        ∧ (∀ z ∈ l1, headerByBlockhash c8store z = none)
        ∧ ∃ e, headerByBlockhash c8store bh = some e ∧ b = BlockId.ofEntry e)
    ∧ (tx_confirming_block c8store 5 = none ↔
      ∀ bh ∈ c8store.confRows 5, headerByBlockhash c8store bh = none) :=
  c8_tx_confirming_block c8store 5

/-- C10: a transaction returned by `lookup_txn` always carries the queried
txid (the `assert_eq!` guarantees it), and whenever every raw byte string
the lookup can source for this txid parses to a transaction whose computed
id equals the queried txid, the assertion cannot fire. -/
theorem c10_lookup_txn_txid (Tx : Type) (deser : List Nat → Tx)
    (txidOf : Tx → Nat) (s : QStore) (txid : Nat) (blockhash : Option Nat) :
    (∀ txn, lookup_txn deser txidOf s txid blockhash = TxnLookup.found txn →
       txidOf txn = txid)
    ∧ ((∀ rawtx, lookup_raw_txn s txid blockhash = some rawtx →
          txidOf (deser rawtx) = txid) →
       lookup_txn deser txidOf s txid blockhash ≠ TxnLookup.assertFailed) := by
  constructor
  · intro txn h
    unfold lookup_txn at h
    cases hraw : lookup_raw_txn s txid blockhash with
    | none =>
      rw [hraw] at h
      exact absurd h (by simp)
    | some rawtx =>
      rw [hraw] at h
      by_cases hid : txidOf (deser rawtx) = txid
      · simp only [if_pos hid] at h
        cases h
        exact hid
      · simp only [if_neg hid] at h
        exact absurd h (by simp)
  · intro hpre h
    unfold lookup_txn at h
    cases hraw : lookup_raw_txn s txid blockhash with
    | none =>
      rw [hraw] at h
      exact absurd h (by simp)
    | some rawtx =>
      rw [hraw] at h
      simp only [if_pos (hpre rawtx hraw)] at h
      exact absurd h (by simp)

/-- Concrete store for the C10 witness: the `T{5}` row holds bytes whose
parsed transaction has computed txid 5. -/
def c10store : QStore :=
  { emptyStore with txRows := fun txid => if txid = 5 then some [5] else none }

/-- C10 witness: at the concrete store the precondition holds, so the
assertion cannot fail, and the lookup indeed returns a transaction whose
id is the queried one. -/
theorem c10_lookup_txn_txid_witness :
    lookup_txn (fun l => l.headD 0) (fun n => n) c10store 5 none ≠
      TxnLookup.assertFailed :=
  (c10_lookup_txn_txid Nat (fun l => l.headD 0) (fun n => n) c10store 5 none).2
    (by
      intro rawtx h
      rw [show lookup_raw_txn c10store 5 none = some [5] from rfl] at h
      cases h
      rfl)

/-- Auxiliary: outside light mode, the raw-tx loop of `get_block_raw`
equals mapping every txid through the `T` row lookup and concatenating. -/
theorem appendRawTxs_eq (s : QStore) (hlight : s.light_mode = false)
    (ts : List Nat) (acc : List Nat) :
    appendRawTxs s ts acc =
      (mapOption (fun txid => s.txRows txid) ts).map
        (fun raws => acc ++ raws.flatten) := by
  induction ts generalizing acc with
  | nil => simp [appendRawTxs, mapOption]
  | cons t ts ih =>
    have hlk : lookup_raw_txn s t none = s.txRows t := by
      simp [lookup_raw_txn, hlight]
    unfold appendRawTxs mapOption
    rw [hlk]
    cases hr : s.txRows t with
    | none => simp
    | some rawtx =>
      show appendRawTxs s ts (acc ++ rawtx) = _
      rw [ih (acc ++ rawtx)]
      cases hrest : mapOption (fun txid => s.txRows txid) ts with
      | none => simp [hrest]
      | some raws => simp [hrest, List.append_assoc]

/-- C9: outside light mode, `get_block_raw` returns exactly
`serialize(header) ++ varint(txid-list length) ++ concat(raw txs)` when
the header is on the best chain and the meta row, txid-list row and every
per-transaction raw row are present, and `none` as soon as any of those
lookups fails (the `Option.bind` chain on the right is `none` in exactly
those cases). -/
theorem c9_get_block_raw (serHeader : Header → List Nat) (s : QStore)
    (bh : Nat) (hlight : s.light_mode = false) :
    get_block_raw serHeader s bh =
      (headerByBlockhash s bh).bind (fun entry =>
        (s.metaRows bh).bind (fun _ =>
          (s.txidRows bh).bind (fun txids =>
            (mapOption (fun txid => s.txRows txid) txids).map (fun raws =>
              serHeader entry.header ++ varint txids.length ++ raws.flatten)))) := by
  unfold get_block_raw get_block_meta get_block_txids
  rw [hlight]
  simp only [Bool.false_eq_true, if_false]
  cases headerByBlockhash s bh with
  | none => rfl
  | some entry =>
    cases s.metaRows bh with
    | none => rfl
    | some meta =>
      cases s.txidRows bh with
      | none => rfl
      | some txids =>
        simp only [Option.bind_some]
        rw [appendRawTxs_eq s hlight]
        cases hm : mapOption (fun txid => s.txRows txid) txids with
        | none => simp [hm]
        | some raws => simp [hm, List.append_assoc]

/-- The UTXO fold over a whole row list. -/
def applyHistoryRows (m : UtxoMap) (rows : List (TxHistoryRow × BlockId)) :
    UtxoMap :=
  rows.foldl applyHistoryRow m

/-- Whether a surviving history row is a funding row. -/
def isFundingRow (hb : TxHistoryRow × BlockId) : Bool :=
  match hb.1.key.txinfo with
  | .Funding _ => true
  | .Spending _ => false

/-- Number of funding rows in a surviving row list. -/
def countFunding (rows : List (TxHistoryRow × BlockId)) : Nat :=
  (rows.filter isFundingRow).length

/-- Number of spending rows in a surviving row list. -/
def countSpending (rows : List (TxHistoryRow × BlockId)) : Nat :=
  (rows.filter (fun hb => !isFundingRow hb)).length

/-- Unfolding equation for one step of the `utxo_delta` loop. -/
theorem utxoDeltaLoop_cons (limit : Nat) (hb : TxHistoryRow × BlockId)
    (rest : List (TxHistoryRow × BlockId)) (m : UtxoMap) (p : Nat)
    (lb : Option Nat) :
    utxoDeltaLoop limit (hb :: rest) m p lb =
      (if limit < (applyHistoryRow m hb).length then .error .TooPopular
       else utxoDeltaLoop limit rest (applyHistoryRow m hb) (p + 1)
         (some hb.2.hash)) := by
  rfl

/-- C3 auxiliary: the `utxo_delta` loop fails with `TooPopular` exactly
when the UTXO map exceeds `limit` after some row of the scan. -/
theorem utxoDeltaLoop_error_iff (limit : Nat)
    (rows : List (TxHistoryRow × BlockId)) (m : UtxoMap) (p : Nat)
    (lb : Option Nat) :
    utxoDeltaLoop limit rows m p lb = .error .TooPopular ↔
      ∃ n, n < rows.length ∧
        limit < (applyHistoryRows m (rows.take (n + 1))).length := by
  induction rows generalizing m p lb with
  | nil =>
    simp only [utxoDeltaLoop, List.length_nil]
    constructor
    · intro h
      exact absurd h (by simp)
    · rintro ⟨n, hn, -⟩
      omega
  | cons hb rest ih =>
    rw [utxoDeltaLoop_cons]
    by_cases hlim : limit < (applyHistoryRow m hb).length
    · rw [if_pos hlim]
      constructor
      · intro _
        exact ⟨0, by simp, by simpa [applyHistoryRows] using hlim⟩
      · intro _
        rfl
    · rw [if_neg hlim, ih]
      constructor
      · rintro ⟨n, hn, hex⟩
        refine ⟨n + 1, by simpa using hn, ?_⟩
        simpa [applyHistoryRows, List.take_succ_cons] using hex
      · rintro ⟨n, hn, hex⟩
        cases n with
        | zero =>
          exact absurd (by simpa [applyHistoryRows] using hex) hlim
        | succ k =>
          refine ⟨k, by simpa using hn, ?_⟩
          simpa [applyHistoryRows, List.take_succ_cons] using hex

/-- C3/C6 auxiliary: on success the `utxo_delta` loop returns the full
fold of the scan, the processed-row count, and the hash of the last
surviving row's block. -/
theorem utxoDeltaLoop_ok_eq (limit : Nat)
    (rows : List (TxHistoryRow × BlockId)) (m : UtxoMap) (p : Nat)
    (lb : Option Nat) (m' : UtxoMap) (lb' : Option Nat) (p' : Nat)
    (hok : utxoDeltaLoop limit rows m p lb = .ok (m', lb', p')) :
    m' = applyHistoryRows m rows ∧ p' = p + rows.length ∧
      lb' = rows.foldl (fun _ hb => some hb.2.hash) lb := by
  induction rows generalizing m p lb with
  | nil =>
    simp only [utxoDeltaLoop] at hok
    cases hok
    simp [applyHistoryRows]
  | cons hb rest ih =>
    rw [utxoDeltaLoop_cons] at hok
    by_cases hlim : limit < (applyHistoryRow m hb).length
    · rw [if_pos hlim] at hok
      exact absurd hok (by simp)
    · rw [if_neg hlim] at hok
      rcases ih _ _ _ hok with ⟨h1, h2, h3⟩
      refine ⟨by simpa [applyHistoryRows] using h1, ?_, by simpa using h3⟩
      rw [List.length_cons]
      omega
def c9store : QStore :=
  { emptyStore with
      headers := [(20, ⟨7, 1⟩)],
      metaRows := fun b => if b = 20 then some ⟨1, 100, 400⟩ else none,
      txidRows := fun b => if b = 20 then some [5] else none,
      txRows := fun txid => if txid = 5 then some [9, 9] else none }

/-- C9 witness: the reconstruction equation at the concrete store. -/
theorem c9_get_block_raw_witness :
    get_block_raw (fun h => [h.time]) c9store 20 =
      (headerByBlockhash c9store 20).bind (fun entry =>
        (c9store.metaRows 20).bind (fun _ =>
          (c9store.txidRows 20).bind (fun txids =>
            (mapOption (fun txid => c9store.txRows txid) txids).map (fun raws =>
              (fun h : Header => [h.time]) entry.header ++
                varint txids.length ++ raws.flatten)))) :=
  c9_get_block_raw (fun h => [h.time]) c9store 20 rfl

/-- Concrete store for C3: scripthash 7 has ten funding rows with distinct
outpoints, all confirmed in best-chain block 20, and no cache. -/
def c3store : QStore :=
  { emptyStore with
      headers := [(20, ⟨0, 0⟩)],
      confRows := fun _ => [20],
      histRows := fun scripthash =>
        if scripthash = 7 then
          (List.range 10).map
            (fun i => ⟨⟨72, 7, 0, .Funding ⟨i + 1, 0, 5⟩⟩⟩)
        else [] }

/-- C3: `utxo` fails with `TooPopular` if and only if, during the forward
scan of the surviving history rows applied to the (possibly
cache-initialized) UTXO map, the map exceeds `limit` after some row;
otherwise the successful loop returns exactly the fold of the scan (which
`utxo` converts to `Utxo` values); and a script with 10 distinct unspent
funding outpoints queried with `limit = 5` gets `TooPopular`. -/
theorem c3_too_popular_iff :
    (∀ (limit : Nat) (rows : List (TxHistoryRow × BlockId)) (m : UtxoMap),
      utxoDeltaLoop limit rows m 0 none = .error .TooPopular ↔
        ∃ n, n < rows.length ∧
          limit < (applyHistoryRows m (rows.take (n + 1))).length)
    ∧ (∀ (limit : Nat) (rows : List (TxHistoryRow × BlockId)) (m m' : UtxoMap)
        (lb : Option Nat) (p : Nat),
      utxoDeltaLoop limit rows m 0 none = .ok (m', lb, p) →
        m' = applyHistoryRows m rows)
    ∧ (∀ (s : QStore) (scripthash limit : Nat),
      utxo s scripthash limit = some (.error .TooPopular) ↔
        ∃ cache, resolveUtxoCache s scripthash = some cache ∧
          utxoDeltaDispatch s scripthash limit cache = .error .TooPopular)
    ∧ utxo c3store 7 5 = some (.error .TooPopular) := by
  refine ⟨fun limit rows m => utxoDeltaLoop_error_iff limit rows m 0 none,
    fun limit rows m m' lb p hok =>
      (utxoDeltaLoop_ok_eq limit rows m 0 none m' lb p hok).1, ?_, by rfl⟩
  intro s scripthash limit
  unfold utxo
  cases hres : resolveUtxoCache s scripthash with
  | none =>
    constructor
    · intro h
      exact absurd h (by simp)
    · rintro ⟨cache, hc, -⟩
      exact absurd hc (by simp)
  | some cache =>
    dsimp only
    cases hd : utxoDeltaDispatch s scripthash limit cache with
    | error e =>
      cases e
      constructor
      · intro _
        exact ⟨cache, rfl, hd⟩
      · intro _
        rfl
    | ok t =>
      obtain ⟨m, lb, p⟩ := t
      constructor
      · intro h
        exact absurd h (by simp)
      · rintro ⟨cache2, hc2, hd2⟩
        rw [Option.some_inj] at hc2
        rw [← hc2] at hd2
        rw [hd] at hd2
        exact absurd hd2 (by simp)

/-- C3 witness: the ok-case equation of the theorem discharged at the
empty scan. -/
theorem c3_too_popular_iff_witness :
    ([] : UtxoMap) = applyHistoryRows [] [] :=
  c3_too_popular_iff.2.1 100 [] [] [] none 0 rfl

/-- C6: after a successful `utxo` call, a `U{scripthash}` cache row is
written iff the delta scan processed at least one row (`lastblock` is
`some`) AND (a usable cache entry existed before the call OR strictly
more than 100 history rows were processed). -/
theorem c6_utxo_cache_persistence (s : QStore) (scripthash limit : Nat)
    (r : UtxoOk) (hok : utxo s scripthash limit = some (.ok r)) :
    ∃ cache m lb p, resolveUtxoCache s scripthash = some cache
      ∧ utxoDeltaDispatch s scripthash limit cache = .ok (m, lb, p)
      ∧ r.cacheWrite.isSome =
          (lb.isSome && (cache.isSome ||
            decide (MIN_HISTORY_ITEMS_TO_CACHE < p))) := by
  unfold utxo at hok
  cases hres : resolveUtxoCache s scripthash with
  | none =>
    rw [hres] at hok
    exact absurd hok (by simp)
  | some cache =>
    rw [hres] at hok
    dsimp only at hok
    cases hd : utxoDeltaDispatch s scripthash limit cache with
    | error e =>
      rw [hd] at hok
      exact absurd hok (by simp)
    | ok t =>
      obtain ⟨m, lb, p⟩ := t
      rw [hd] at hok
      refine ⟨cache, m, lb, p, rfl, hd, ?_⟩
      rw [Option.some_inj] at hok
      have hr := (Except.ok.inj hok).symm
      rw [hr]
      cases lb with
      | none => simp
      | some lbv =>
        by_cases hcond : (cache.isSome ||
            decide (MIN_HISTORY_ITEMS_TO_CACHE < p)) = true
        · simp [hcond]
        · simp only [Bool.not_eq_true] at hcond
          simp [hcond]

/-- Projection of a `utxo` outcome to the written-cache flag (`none` for
panics and `TooPopular`). -/
def utxoWriteFlag (o : Option (Except QueryError UtxoOk)) : Option Bool :=
  match o with
  | some (.ok r) => some r.cacheWrite.isSome
  | _ => none

/-- Concrete store for the C6 counterexample, first half: a valid cache
entry for scripthash 7 exists, and there are no new history rows. -/
def c6cex1 : QStore :=
  { emptyStore with
      headers := [(20, ⟨0, 0⟩)],
      utxoCache := fun scripthash =>
        if scripthash = 7 then some ([], 20) else none }

/-- Concrete store for the C6 counterexample, second half: no cache entry
and exactly 100 surviving history rows. -/
def c6cex2 : QStore :=
  { emptyStore with
      headers := [(20, ⟨0, 0⟩)],
      confRows := fun _ => [20],
      histRows := fun scripthash =>
        if scripthash = 7 then
          (List.range 100).map
            (fun i => ⟨⟨72, 7, 0, .Funding ⟨i + 1, 0, 5⟩⟩⟩)
        else [] }

/-- C6 counterexample. With a pre-existing cache entry but an empty delta
scan, `utxo` succeeds yet writes no cache row (the claim demands a write);
and with no prior cache entry and exactly 100 processed rows (the claim's
"at least 100"), the `> 100` comparison in the code again writes
nothing. -/
theorem c6_counterexample :
    (c6cex1.utxoCache 7).isSome = true
    ∧ utxoWriteFlag (utxo c6cex1 7 5) = some false
    ∧ (utxoScanRows c6cex2 7 0).length = 100
    ∧ (c6cex2.utxoCache 7).isSome = false
    ∧ utxoWriteFlag (utxo c6cex2 7 1000) = some false := by
  exact ⟨rfl, rfl, rfl, rfl, rfl⟩

/-- Concrete store for the C6 witness: a valid cache entry plus one new
surviving funding row, so the write fires with `lastblock = some`. -/
def c6w : QStore :=
  { emptyStore with
      headers := [(20, ⟨0, 0⟩), (21, ⟨0, 0⟩)],
      utxoCache := fun scripthash =>
        if scripthash = 7 then some ([], 20) else none,
      histRows := fun scripthash =>
        if scripthash = 7 then [⟨⟨72, 7, 1, .Funding ⟨9, 0, 50⟩⟩⟩] else [],
      confRows := fun txid => if txid = 9 then [21] else [] }

/-- C6 witness: the persistence rule at the concrete store (one processed
row, cache present, cache row written). -/
theorem c6_utxo_cache_persistence_witness :
    ∃ cache m lb p, resolveUtxoCache c6w 7 = some cache
      ∧ utxoDeltaDispatch c6w 7 10 cache = .ok (m, lb, p)
      ∧ ({ utxos := [⟨9, 0, 50, some ⟨1, 21, 0⟩⟩],
           cacheWrite := some ([(⟨9, 0⟩, (⟨1, 21, 0⟩, 50))], 21) } :
          UtxoOk).cacheWrite.isSome =
          (lb.isSome && (cache.isSome ||
            decide (MIN_HISTORY_ITEMS_TO_CACHE < p))) :=
  c6_utxo_cache_persistence c6w 7 10
    { utxos := [⟨9, 0, 50, some ⟨1, 21, 0⟩⟩],
      cacheWrite := some ([(⟨9, 0⟩, (⟨1, 21, 0⟩, 50))], 21) } rfl

/-- The key list of a `UtxoMap`. -/
def umKeys (m : UtxoMap) : List OutPoint := m.map Prod.fst

/-- Key membership agrees with `umHasKey`. -/
theorem umHasKey_iff (m : UtxoMap) (k : OutPoint) :
    umHasKey m k = true ↔ k ∈ umKeys m := by
  unfold umHasKey umKeys
  rw [List.any_eq_true]
  constructor
  · rintro ⟨p, hp, he⟩
    exact List.mem_map.mpr ⟨p, hp, of_decide_eq_true he⟩
  · intro h
    rcases List.mem_map.mp h with ⟨p, hp, he⟩
    exact ⟨p, hp, decide_eq_true he⟩

/-- A fresh insert appends the binding. -/
theorem umInsert_of_fresh (m : UtxoMap) (k : OutPoint) (v : BlockId × Nat)
    (h : k ∉ umKeys m) : umInsert m k v = m ++ [(k, v)] := by
  unfold umInsert
  rw [if_neg]
  intro hc
  exact h ((umHasKey_iff m k).mp hc)

/-- Removing an absent key leaves the map unchanged. -/
theorem umRemove_of_absent (m : UtxoMap) (k : OutPoint)
    (h : k ∉ umKeys m) : umRemove m k = m := by
  unfold umRemove
  apply List.filter_eq_self.mpr
  intro p hp
  apply decide_eq_true
  intro he
  exact h (he ▸ List.mem_map.mpr ⟨p, hp, rfl⟩)

/-- Removing a present key from a map with distinct keys drops exactly one
binding. -/
theorem umRemove_length (m : UtxoMap) (k : OutPoint)
    (hnd : (umKeys m).Nodup) (hmem : k ∈ umKeys m) :
    (umRemove m k).length + 1 = m.length := by
  induction m with
  | nil => exact absurd hmem (by simp [umKeys])
  | cons p m ih =>
    rw [show umKeys (p :: m) = p.1 :: umKeys m from rfl] at hnd hmem
    have hnd' : (umKeys m).Nodup := hnd.of_cons
    have hp1 : p.1 ∉ umKeys m := (List.nodup_cons.mp hnd).1
    by_cases hk : p.1 = k
    · have hrem : umRemove (p :: m) k = umRemove m k := by
        unfold umRemove
        rw [List.filter_cons]
        simp [hk]
      rw [hrem, umRemove_of_absent m k (hk ▸ hp1)]
      simp
    · have hrem : umRemove (p :: m) k = p :: umRemove m k := by
        unfold umRemove
        rw [List.filter_cons]
        simp [hk]
      have hkm : k ∈ umKeys m := by
        rcases List.mem_cons.mp hmem with h | h
        · exact absurd h.symm hk
        · exact h
      rw [hrem, List.length_cons, List.length_cons, ← ih hnd' hkm]

/-- The keys of `umRemove` are a sublist of the original keys. -/
theorem umKeys_umRemove_sublist (m : UtxoMap) (k : OutPoint) :
    List.Sublist (umKeys (umRemove m k)) (umKeys m) := by
  unfold umKeys umRemove
  exact (List.filter_sublist m).map Prod.fst

/-- `wfScan m rows`: the delta scan is well-formed over `m` — every
funding row funds an outpoint not currently in the map and every spending
row spends one that is (the shape real best-chain history has). -/
def wfScan : UtxoMap → List (TxHistoryRow × BlockId) → Bool
  | _, [] => true
  | m, hb :: rest =>
    match hb.1.key.txinfo with
    | .Funding info =>
      !(umHasKey m hb.1.get_funded_outpoint) &&
        wfScan (umInsert m hb.1.get_funded_outpoint (hb.2, info.value)) rest
    | .Spending _ =>
      umHasKey m hb.1.get_funded_outpoint &&
        wfScan (umRemove m hb.1.get_funded_outpoint) rest

/-- C2 auxiliary: on a well-formed scan over a map with distinct keys, a
successful `utxo_delta` loop changes the map size by exactly
`countFunding - countSpending`. -/
theorem utxoDeltaLoop_wf_length (limit : Nat) :
    ∀ (rows : List (TxHistoryRow × BlockId)) (m : UtxoMap) (p : Nat)
      (lb : Option Nat) (m' : UtxoMap) (lb' : Option Nat) (p' : Nat),
      (umKeys m).Nodup → wfScan m rows = true →
      utxoDeltaLoop limit rows m p lb = .ok (m', lb', p') →
      m'.length + countSpending rows = m.length + countFunding rows := by
  intro rows
  induction rows with
  | nil =>
    intro m p lb m' lb' p' _ _ hok
    simp only [utxoDeltaLoop] at hok
    cases hok
    simp [countFunding, countSpending]
  | cons hb rest ih =>
    intro m p lb m' lb' p' hnd hwf hok
    rw [utxoDeltaLoop_cons] at hok
    cases hti : hb.1.key.txinfo with
    | Funding info =>
      have happ : applyHistoryRow m hb =
          umInsert m hb.1.get_funded_outpoint (hb.2, info.value) := by
        unfold applyHistoryRow
        rw [hti]
      simp only [wfScan, hti, Bool.and_eq_true, Bool.not_eq_true'] at hwf
      obtain ⟨hfresh, hwf'⟩ := hwf
      have hfresh' : hb.1.get_funded_outpoint ∉ umKeys m := by
        intro hc
        rw [(umHasKey_iff _ _).mpr hc] at hfresh
        exact absurd hfresh (by simp)
      have hins := umInsert_of_fresh m hb.1.get_funded_outpoint
        (hb.2, info.value) hfresh'
      have hlen : (applyHistoryRow m hb).length = m.length + 1 := by
        rw [happ, hins]
        simp
      have hnd' : (umKeys (applyHistoryRow m hb)).Nodup := by
        rw [happ, hins]
        unfold umKeys
        rw [List.map_append]
        refine List.Nodup.append hnd (by simp) ?_
        intro x hx hy
        rcases List.mem_singleton.mp (by simpa using hy) with rfl
        exact hfresh' hx
      by_cases hlim : limit < (applyHistoryRow m hb).length
      · rw [if_pos hlim] at hok
        exact absurd hok (by simp)
      · rw [if_neg hlim] at hok
        have hrec := ih (applyHistoryRow m hb) (p + 1) (some hb.2.hash)
          m' lb' p' hnd' (by rw [happ]; exact hwf') hok
        have hcf : countFunding (hb :: rest) = countFunding rest + 1 := by
          simp [countFunding, List.filter_cons, isFundingRow, hti]
        have hcs : countSpending (hb :: rest) = countSpending rest := by
          simp [countSpending, List.filter_cons, isFundingRow, hti]
        rw [hcf, hcs]
        rw [happ, hins] at hrec
        simp only [List.length_append, List.length_singleton] at hrec
        omega
    | Spending info =>
      have happ : applyHistoryRow m hb =
          umRemove m hb.1.get_funded_outpoint := by
        unfold applyHistoryRow
        rw [hti]
      simp only [wfScan, hti, Bool.and_eq_true] at hwf
      obtain ⟨hpres, hwf'⟩ := hwf
      have hpres' : hb.1.get_funded_outpoint ∈ umKeys m :=
        (umHasKey_iff _ _).mp hpres
      have hlen : (applyHistoryRow m hb).length + 1 = m.length := by
        rw [happ]
        exact umRemove_length m _ hnd hpres'
      have hnd' : (umKeys (applyHistoryRow m hb)).Nodup := by
        rw [happ]
        exact hnd.sublist (umKeys_umRemove_sublist m _)
      by_cases hlim : limit < (applyHistoryRow m hb).length
      · rw [if_pos hlim] at hok
        exact absurd hok (by simp)
      · rw [if_neg hlim] at hok
        have hrec := ih (applyHistoryRow m hb) (p + 1) (some hb.2.hash)
          m' lb' p' hnd' (by rw [happ]; exact hwf') hok
        have hcf : countFunding (hb :: rest) = countFunding rest := by
          simp [countFunding, List.filter_cons, isFundingRow, hti]
        have hcs : countSpending (hb :: rest) = countSpending rest + 1 := by
          simp [countSpending, List.filter_cons, isFundingRow, hti]
        rw [hcf, hcs]
        omega

/-- C2 auxiliary: `stats_delta` adds exactly one to `funded_txo_count` per
funding row and one to `spent_txo_count` per spending row, independently
of the seen-txid set. -/
theorem statsDeltaLoop_counts :
    ∀ (rows : List (TxHistoryRow × BlockId)) (st : ScriptStats)
      (seen : List Nat) (lb : Option Nat),
      (statsDeltaLoop rows st seen lb).1.funded_txo_count
          = st.funded_txo_count + countFunding rows
      ∧ (statsDeltaLoop rows st seen lb).1.spent_txo_count
          = st.spent_txo_count + countSpending rows := by
  intro rows
  induction rows with
  | nil =>
    intro st seen lb
    simp [statsDeltaLoop, countFunding, countSpending]
  | cons hb rest ih =>
    intro st seen lb
    rw [show statsDeltaLoop (hb :: rest) st seen lb =
        statsDeltaLoop rest
          (statsBump
            (if (decide (hb.1.get_txid ∉ statsSeenReset seen lb hb.2) : Bool)
             then { st with tx_count := st.tx_count + 1 } else st) hb.1)
          (if (decide (hb.1.get_txid ∉ statsSeenReset seen lb hb.2) : Bool)
           then hb.1.get_txid :: statsSeenReset seen lb hb.2
           else statsSeenReset seen lb hb.2)
          (some hb.2.hash) from rfl]
    obtain ⟨ihf, ihs⟩ := ih
      (statsBump
        (if (decide (hb.1.get_txid ∉ statsSeenReset seen lb hb.2) : Bool)
         then { st with tx_count := st.tx_count + 1 } else st) hb.1)
      (if (decide (hb.1.get_txid ∉ statsSeenReset seen lb hb.2) : Bool)
       then hb.1.get_txid :: statsSeenReset seen lb hb.2
       else statsSeenReset seen lb hb.2)
      (some hb.2.hash)
    rw [ihf, ihs]
    have hst1f :
        (if (decide (hb.1.get_txid ∉ statsSeenReset seen lb hb.2) : Bool)
         then { st with tx_count := st.tx_count + 1 } else st).funded_txo_count
          = st.funded_txo_count := by
      split <;> rfl
    have hst1s :
        (if (decide (hb.1.get_txid ∉ statsSeenReset seen lb hb.2) : Bool)
         then { st with tx_count := st.tx_count + 1 } else st).spent_txo_count
          = st.spent_txo_count := by
      split <;> rfl
    cases hti : hb.1.key.txinfo with
    | Funding info =>
      have hbf : ∀ st2 : ScriptStats,
          (statsBump st2 hb.1).funded_txo_count = st2.funded_txo_count + 1 ∧
          (statsBump st2 hb.1).spent_txo_count = st2.spent_txo_count := by
        intro st2
        unfold statsBump
        rw [hti]
        exact ⟨rfl, rfl⟩
      rcases hbf _ with ⟨h1, h2⟩
      rw [h1, h2, hst1f, hst1s]
      constructor
      · have : countFunding (hb :: rest) = countFunding rest + 1 := by
          simp [countFunding, List.filter_cons, isFundingRow, hti]
        omega
      · have : countSpending (hb :: rest) = countSpending rest := by
          simp [countSpending, List.filter_cons, isFundingRow, hti]
        omega
    | Spending info =>
      have hbf : ∀ st2 : ScriptStats,
          (statsBump st2 hb.1).funded_txo_count = st2.funded_txo_count ∧
          (statsBump st2 hb.1).spent_txo_count = st2.spent_txo_count + 1 := by
        intro st2
        unfold statsBump
        rw [hti]
        exact ⟨rfl, rfl⟩
      rcases hbf _ with ⟨h1, h2⟩
      rw [h1, h2, hst1f, hst1s]
      constructor
      · have : countFunding (hb :: rest) = countFunding rest := by
          simp [countFunding, List.filter_cons, isFundingRow, hti]
        omega
      · have : countSpending (hb :: rest) = countSpending rest + 1 := by
          simp [countSpending, List.filter_cons, isFundingRow, hti]
        omega

/-- Bool form of the no-stale-rows invariant: every history row whose txid
has a best-chain confirming block carries that block's height in its
`confirmed_height` field. -/
def heightsMatch (s : QStore) (scripthash : Nat) : Bool :=
  (s.histRows scripthash).all (fun r =>
    match tx_confirming_block s r.get_txid with
    | some b => decide (b.height = r.key.confirmed_height)
    | none => true)

/-- C2 auxiliary: under the no-stale-rows invariant the extra height
filter of `stats_delta` drops nothing, so both deltas traverse the same
surviving rows. -/
theorem scanRows_eq_of_heightsMatch (s : QStore) (scripthash start : Nat)
    (hm : heightsMatch s scripthash = true) :
    statsScanRows s scripthash start = utxoScanRows s scripthash start := by
  unfold statsScanRows utxoScanRows
  apply List.filterMap_congr
  intro r hr
  have hrmem : r ∈ s.histRows scripthash :=
    (List.dropWhile_sublist _).subset hr
  have hall := List.all_eq_true.mp hm r hrmem
  cases hc : tx_confirming_block s r.get_txid with
  | none => rfl
  | some b =>
    rw [hc] at hall
    have hb : b.height = r.key.confirmed_height := of_decide_eq_true hall
    simp [hb]

/-- C2 counterexample store: one funding row recorded at height 5 whose
txid actually confirms at height 0 on the best chain — `stats_delta`
drops it, `utxo_delta` keeps it. -/
def c2cex : QStore :=
  { emptyStore with
      headers := [(20, ⟨0, 0⟩)],
      confRows := fun txid => if txid = 9 then [20] else [],
      histRows := fun scripthash =>
        if scripthash = 7 then [⟨⟨72, 7, 5, .Funding ⟨9, 0, 50⟩⟩⟩] else [] }

/-- Projection of a `utxo` outcome to the length of the returned list. -/
def utxoLenFlag (o : Option (Except QueryError UtxoOk)) : Option Nat :=
  match o with
  | some (.ok r) => some r.utxos.length
  | _ => none

/-- C2 counterexample: at `c2cex`, `utxo` succeeds with one UTXO but the
stats count `funded - spent` is 0, because the stale row (stored height 5,
confirming height 0) is dropped only by the stats filter. -/
theorem c2_counterexample :
    (stats c2cex 7).1.funded_txo_count - (stats c2cex 7).1.spent_txo_count = 0
    ∧ utxoLenFlag (utxo c2cex 7 10) = some 1 :=
  ⟨rfl, rfl⟩

/-- C2 (amended): for a scripthash with no cached aggregates, no stale
reorged rows (every surviving row's `confirmed_height` equals its
confirming block's height) and a well-formed scan (funding rows fund
fresh outpoints, spending rows spend live ones), a successful
`utxo(scripthash, limit)` returns exactly
`stats(scripthash).funded_txo_count - stats(scripthash).spent_txo_count`
entries. -/
theorem c2_utxo_conservation (s : QStore) (scripthash limit : Nat)
    (r : UtxoOk)
    (huc : s.utxoCache scripthash = none)
    (hsc : s.statsCache scripthash = none)
    (hm : heightsMatch s scripthash = true)
    (hwf : wfScan [] (utxoScanRows s scripthash 0) = true)
    (hok : utxo s scripthash limit = some (.ok r)) :
    (stats s scripthash).1.funded_txo_count -
        (stats s scripthash).1.spent_txo_count = r.utxos.length
    ∧ (stats s scripthash).1.spent_txo_count ≤
        (stats s scripthash).1.funded_txo_count := by
  have hres : resolveUtxoCache s scripthash = some none := by
    unfold resolveUtxoCache
    rw [huc]
  unfold utxo at hok
  rw [hres] at hok
  dsimp only at hok
  cases hd : utxoDeltaDispatch s scripthash limit none with
  | error e =>
    rw [hd] at hok
    exact absurd hok (by simp)
  | ok t =>
    obtain ⟨m', lb, p⟩ := t
    rw [hd] at hok
    rw [Option.some_inj] at hok
    have hr := (Except.ok.inj hok).symm
    have hulen : r.utxos.length = m'.length := by
      rw [hr]
      simp
    have hdisp : utxoDeltaDispatch s scripthash limit none =
        utxoDeltaLoop limit (utxoScanRows s scripthash 0) [] 0 none := rfl
    rw [hdisp] at hd
    have hlen := utxoDeltaLoop_wf_length limit (utxoScanRows s scripthash 0)
      [] 0 none m' lb p (by simp [umKeys]) hwf hd
    have hstats : (stats s scripthash).1 =
        (statsDeltaLoop (statsScanRows s scripthash 0)
          ScriptStats.default [] none).1 := by
      unfold stats
      rw [show resolveStatsCache s scripthash = none from by
        unfold resolveStatsCache
        rw [hsc]
        rfl]
      rfl
    obtain ⟨hf, hs2⟩ := statsDeltaLoop_counts (statsScanRows s scripthash 0)
      ScriptStats.default [] none
    have hdf : ScriptStats.default.funded_txo_count = 0 := rfl
    have hds : ScriptStats.default.spent_txo_count = 0 := rfl
    rw [hstats, hf, hs2, hdf, hds,
      scanRows_eq_of_heightsMatch s scripthash 0 hm, hulen]
    simp only [List.length_nil] at hlen
    omega

/-- C2 witness store: one funding row for outpoint `(9, 0)` and one
spending row consuming it, both confirmed at their stored heights. -/
def c2w : QStore :=
  { emptyStore with
      headers := [(20, ⟨0, 0⟩), (21, ⟨0, 0⟩)],
      confRows := fun txid =>
        if txid = 9 then [20] else if txid = 11 then [21] else [],
      histRows := fun scripthash =>
        if scripthash = 7 then
          [⟨⟨72, 7, 0, .Funding ⟨9, 0, 50⟩⟩⟩,
           ⟨⟨72, 7, 1, .Spending ⟨11, 0, 9, 0, 50⟩⟩⟩]
        else [] }

/-- C2 witness: the conservation theorem at the concrete fund-then-spend
store (`1 - 1 = 0` UTXOs). -/
theorem c2_utxo_conservation_witness :
    ((stats c2w 7).1.funded_txo_count - (stats c2w 7).1.spent_txo_count
        = ({ utxos := [], cacheWrite := none } : UtxoOk).utxos.length)
    ∧ (stats c2w 7).1.spent_txo_count ≤ (stats c2w 7).1.funded_txo_count :=
  c2_utxo_conservation c2w 7 10 { utxos := [], cacheWrite := none }
    rfl rfl rfl rfl rfl

/-- The tx-count dynamics of `stats_delta` isolated on `(blockhash, txid)`
pairs: clear the seen set at block transitions, add one per unseen txid. -/
def runCount : List (Nat × Nat) → List Nat → Option Nat → Nat
  | [], _, _ => 0
  | q :: rest, seen, lastblock =>
    let seen0 := if lastblock ≠ some q.1 then [] else seen
    let isNew : Bool := decide (q.2 ∉ seen0)
    (if isNew then 1 else 0) +
      runCount rest (if isNew then q.2 :: seen0 else seen0) (some q.1)

/-- `statsBump` never touches `tx_count`. -/
theorem statsBump_tx_count (st : ScriptStats) (h : TxHistoryRow) :
    (statsBump st h).tx_count = st.tx_count := by
  unfold statsBump
  cases h.key.txinfo <;> rfl

/-- C7 auxiliary: the `tx_count` added by `stats_delta` is exactly the
`runCount` of the surviving rows projected to `(blockhash, txid)`. -/
theorem statsDeltaLoop_tx_count :
    ∀ (rows : List (TxHistoryRow × BlockId)) (st : ScriptStats)
      (seen : List Nat) (lb : Option Nat),
      (statsDeltaLoop rows st seen lb).1.tx_count
        = st.tx_count +
          runCount (rows.map (fun hb => (hb.2.hash, hb.1.get_txid))) seen lb := by
  intro rows
  induction rows with
  | nil =>
    intro st seen lb
    simp [statsDeltaLoop, runCount]
  | cons hb rest ih =>
    intro st seen lb
    rw [show statsDeltaLoop (hb :: rest) st seen lb =
        statsDeltaLoop rest
          (statsBump
            (if (decide (hb.1.get_txid ∉ statsSeenReset seen lb hb.2) : Bool)
             then { st with tx_count := st.tx_count + 1 } else st) hb.1)
          (if (decide (hb.1.get_txid ∉ statsSeenReset seen lb hb.2) : Bool)
           then hb.1.get_txid :: statsSeenReset seen lb hb.2
           else statsSeenReset seen lb hb.2)
          (some hb.2.hash) from rfl]
    rw [ih]
    rw [statsBump_tx_count]
    rw [show runCount
          ((hb :: rest).map (fun hb => (hb.2.hash, hb.1.get_txid))) seen lb =
        (if (decide (hb.1.get_txid ∉ statsSeenReset seen lb hb.2) : Bool)
         then 1 else 0) +
          runCount (rest.map (fun hb => (hb.2.hash, hb.1.get_txid)))
            (if (decide (hb.1.get_txid ∉ statsSeenReset seen lb hb.2) : Bool)
             then hb.1.get_txid :: statsSeenReset seen lb hb.2
             else statsSeenReset seen lb hb.2)
            (some hb.2.hash) from rfl]
    cases hnew : (decide (hb.1.get_txid ∉ statsSeenReset seen lb hb.2) : Bool) with
    | true =>
      simp only [if_true]
      omega
    | false =>
      simp only [Bool.false_eq_true, if_false]
      omega

/-- Unfolding equation for `runCount`. -/
theorem runCount_cons (q : Nat × Nat) (rest : List (Nat × Nat))
    (seen : List Nat) (lb : Option Nat) :
    runCount (q :: rest) seen lb =
      (if (decide (q.2 ∉ (if lb ≠ some q.1 then [] else seen)) : Bool)
       then 1 else 0) +
        runCount rest
          (if (decide (q.2 ∉ (if lb ≠ some q.1 then [] else seen)) : Bool)
           then q.2 :: (if lb ≠ some q.1 then [] else seen)
           else (if lb ≠ some q.1 then [] else seen))
          (some q.1) := rfl

/-- A block transition clears the seen set, so the incoming state is
irrelevant. -/
theorem runCount_head_clear (q : Nat × Nat) (rest : List (Nat × Nat))
    (seen1 seen2 : List Nat) (lb1 lb2 : Option Nat)
    (h1 : lb1 ≠ some q.1) (h2 : lb2 ≠ some q.1) :
    runCount (q :: rest) seen1 lb1 = runCount (q :: rest) seen2 lb2 := by
  rw [runCount_cons, runCount_cons, if_pos h1, if_pos h2]

/-- With an empty seen set, the incoming lastblock is irrelevant. -/
theorem runCount_nil_seen (q : Nat × Nat) (rest : List (Nat × Nat))
    (lb : Option Nat) :
    runCount (q :: rest) [] lb = runCount (q :: rest) [] (some q.1) := by
  rw [runCount_cons, runCount_cons, ite_self, ite_self]

/-- C7 core, run step: over a maximal same-block run followed by rows of
other blocks, `runCount` adds the number of unseen txids of the run and
restarts cleanly. -/
theorem runCount_run_append (H : Nat) :
    ∀ (run rest : List (Nat × Nat)) (seen : List Nat),
      (∀ q ∈ run, q.1 = H) →
      (∀ q ∈ rest.head?, q.1 ≠ H) →
      runCount (run ++ rest) seen (some H) =
        ((run.map Prod.snd).toFinset \ seen.toFinset).card +
          runCount rest [] none := by
  intro run
  induction run with
  | nil =>
    intro rest seen _ hhead
    simp only [List.nil_append, List.map_nil, List.toFinset_nil,
      Finset.empty_sdiff, Finset.card_empty, Nat.zero_add]
    cases rest with
    | nil => rfl
    | cons q t =>
      have hq : q.1 ≠ H := hhead q rfl
      exact runCount_head_clear q t seen [] (some H) none
        (fun hc => hq (Option.some_inj.mp hc).symm) (by simp)
  | cons q run' ih =>
    intro rest seen hall hhead
    have hq : q.1 = H := hall q (by simp)
    have hall' : ∀ z ∈ run', z.1 = H := fun z hz => hall z (by simp [hz])
    rw [List.cons_append, runCount_cons,
      if_neg (show ¬ (some H ≠ some q.1) from by simp [hq])]
    by_cases hmem : q.2 ∈ seen
    · rw [show (decide (q.2 ∉ seen) : Bool) = false from by simp [hmem]]
      simp only [Bool.false_eq_true, if_false]
      rw [hq, ih rest seen hall' hhead]
      have hset : ((q.2 :: run'.map Prod.snd).toFinset \ seen.toFinset) =
          ((run'.map Prod.snd).toFinset \ seen.toFinset) := by
        ext x
        simp only [Finset.mem_sdiff, List.mem_toFinset, List.mem_cons]
        constructor
        · rintro ⟨hx | hx, hns⟩
          · exact absurd (hx ▸ hmem) hns
          · exact ⟨hx, hns⟩
        · rintro ⟨hx, hns⟩
          exact ⟨Or.inr hx, hns⟩
      rw [show ((q :: run').map Prod.snd) = q.2 :: run'.map Prod.snd from rfl,
        hset]
      omega
    · rw [show (decide (q.2 ∉ seen) : Bool) = true from by simp [hmem]]
      simp only [if_true]
      rw [hq, ih rest (q.2 :: seen) hall' hhead]
      have hset : ((q :: run').map Prod.snd).toFinset \ seen.toFinset =
          insert q.2 ((run'.map Prod.snd).toFinset \
            (q.2 :: seen).toFinset) := by
        ext x
        simp only [Finset.mem_sdiff, List.mem_toFinset, List.mem_cons,
          Finset.mem_insert, List.map_cons]
        constructor
        · rintro ⟨hx | hx, hns⟩
          · exact Or.inl hx
          · by_cases hxq : x = q.2
            · exact Or.inl hxq
            · exact Or.inr ⟨hx, fun hc => hc.elim hxq hns⟩
        · rintro (hx | ⟨hx, hns⟩)
          · exact ⟨Or.inl hx, hx ▸ hmem⟩
          · exact ⟨Or.inr hx, fun hc => hns (Or.inr hc)⟩
      rw [hset, Finset.card_insert_of_not_mem (by
        simp only [Finset.mem_sdiff, List.mem_toFinset, List.mem_cons,
          not_and, not_not]
        intro _
        exact Or.inl trivial)]
      omega

/-- Every element kept by `takeWhile` satisfies the predicate. -/
theorem mem_takeWhile_pred {α : Type} (pred : α → Bool) :
    ∀ (l : List α) (x : α), x ∈ l.takeWhile pred → pred x = true := by
  intro l
  induction l with
  | nil =>
    intro x hx
    exact absurd hx (by simp)
  | cons a l ih =>
    intro x hx
    rw [List.takeWhile_cons] at hx
    by_cases ha : pred a = true
    · rw [if_pos ha] at hx
      rcases List.mem_cons.mp hx with rfl | hx2
      · exact ha
      · exact ih x hx2
    · rw [if_neg ha] at hx
      exact absurd hx (by simp)

/-- The first element surviving `dropWhile` fails the predicate. -/
theorem dropWhile_head_false {α : Type} (pred : α → Bool) :
    ∀ (l : List α) (q : α) (t : List α),
      l.dropWhile pred = q :: t → pred q = false := by
  intro l
  induction l with
  | nil =>
    intro q t h
    exact absurd h (by simp)
  | cons a l ih =>
    intro q t h
    rw [List.dropWhile_cons] at h
    by_cases ha : pred a = true
    · rw [if_pos ha] at h
      exact ih q t h
    · rw [if_neg ha] at h
      cases h
      exact Bool.not_eq_true _ ▸ (by simpa using ha)

/-- C7 core: when equal-hash rows are contiguous — which follows from
heights being sorted and hash and height determining each other — the
cleared-per-block seen set counts exactly the distinct (hash, txid)
pairs. `L` carries `(hash, txid, height)` triples. -/
theorem runCount_contig :
    ∀ (n : Nat) (L : List (Nat × Nat × Nat)),
      L.length ≤ n →
      L.Pairwise (fun a b => a.2.2 ≤ b.2.2) →
      (∀ a ∈ L, ∀ b ∈ L, a.1 = b.1 → a.2.2 = b.2.2) →
      (∀ a ∈ L, ∀ b ∈ L, a.2.2 = b.2.2 → a.1 = b.1) →
      runCount (L.map (fun a => (a.1, a.2.1))) [] none =
        (L.map (fun a => (a.1, a.2.1))).toFinset.card := by
  intro n
  induction n with
  | zero =>
    intro L hlen _ _ _
    have hnil : L = [] := List.length_eq_zero.mp (Nat.le_zero.mp hlen)
    subst hnil
    rfl
  | succ n ih =>
    intro L hlen hsort hc2 hc3
    cases L with
    | nil => rfl
    | cons p t =>
      have hsplit : (p :: t).takeWhile (fun a => decide (a.1 = p.1)) ++
          (p :: t).dropWhile (fun a => decide (a.1 = p.1)) = p :: t :=
        List.takeWhile_append_dropWhile _ _
      have hrunhead : (p :: t).takeWhile (fun a => decide (a.1 = p.1)) =
          p :: t.takeWhile (fun a => decide (a.1 = p.1)) := by
        rw [List.takeWhile_cons, if_pos (by simp)]
      have hall : ∀ q ∈ (p :: t).takeWhile (fun a => decide (a.1 = p.1)),
          q.1 = p.1 := fun q hq => of_decide_eq_true (mem_takeWhile_pred _ _ q hq)
      have hrest_sub : List.Sublist
          ((p :: t).dropWhile (fun a => decide (a.1 = p.1))) (p :: t) :=
        List.dropWhile_sublist _
      have hlenrest :
          ((p :: t).dropWhile (fun a => decide (a.1 = p.1))).length ≤ n := by
        have h1 := congrArg List.length hsplit
        rw [List.length_append, hrunhead] at h1
        simp only [List.length_cons] at h1 hlen
        omega
      have hsort2 := hsort
      rw [← hsplit] at hsort2
      rcases List.pairwise_append.mp hsort2 with ⟨hpw_run, hpw_rest, hcross⟩
      have hp_run : p ∈ (p :: t).takeWhile (fun a => decide (a.1 = p.1)) := by
        rw [hrunhead]
        exact List.mem_cons_self _ _
      have hheadfalse : ∀ q2 t2,
          (p :: t).dropWhile (fun a => decide (a.1 = p.1)) = q2 :: t2 →
          q2.1 ≠ p.1 := by
        intro q2 t2 heq hq2
        have := dropWhile_head_false _ _ _ _ heq
        rw [decide_eq_false_iff_not] at this
        exact this hq2
      have hrestH : ∀ q ∈ (p :: t).dropWhile (fun a => decide (a.1 = p.1)),
          q.1 ≠ p.1 := by
        intro q hq hqH
        have hqL : q ∈ p :: t := hrest_sub.subset hq
        cases hr : (p :: t).dropWhile (fun a => decide (a.1 = p.1)) with
        | nil =>
          rw [hr] at hq
          exact absurd hq (by simp)
        | cons q2 t2 =>
          have hq2H : q2.1 ≠ p.1 := hheadfalse q2 t2 hr
          rw [hr] at hq
          rcases List.mem_cons.mp hq with rfl | hqt2
          · exact hq2H hqH
          · have hq2q : q2.2.2 ≤ q.2.2 := by
              rw [hr] at hpw_rest
              exact (List.pairwise_cons.mp hpw_rest).1 q hqt2
            have hpq2 : p.2.2 ≤ q2.2.2 :=
              hcross p hp_run q2 (by rw [hr]; exact List.mem_cons_self _ _)
            have hq2L : q2 ∈ p :: t :=
              hrest_sub.subset (by rw [hr]; exact List.mem_cons_self _ _)
            have hqp : q.2.2 = p.2.2 :=
              hc2 q hqL p (List.mem_cons_self _ _) hqH
            have hq2p : q2.2.2 = p.2.2 := by omega
            exact hq2H (hc3 q2 hq2L p (List.mem_cons_self _ _) hq2p)
      -- rewrite the list as run ++ rest and count
      have hmapsplit : (p :: t).map (fun a => (a.1, a.2.1)) =
          ((p :: t).takeWhile (fun a => decide (a.1 = p.1))).map
            (fun a => (a.1, a.2.1)) ++
          ((p :: t).dropWhile (fun a => decide (a.1 = p.1))).map
            (fun a => (a.1, a.2.1)) := by
        rw [← List.map_append, hsplit]
      have hstart : runCount ((p :: t).map (fun a => (a.1, a.2.1))) [] none =
          runCount ((p :: t).map (fun a => (a.1, a.2.1))) [] (some p.1) := by
        rw [show (p :: t).map (fun a => (a.1, a.2.1)) =
            (p.1, p.2.1) :: t.map (fun a => (a.1, a.2.1)) from rfl]
        exact runCount_nil_seen _ _ _
      rw [hstart, hmapsplit]
      rw [runCount_run_append p.1 _ _ []
        (by
          intro x hx
          rcases List.mem_map.mp hx with ⟨q, hq, rfl⟩
          exact hall q hq)
        (by
          intro x hx
          rw [List.head?_map] at hx
          cases hr : (p :: t).dropWhile (fun a => decide (a.1 = p.1)) with
          | nil =>
            rw [hr] at hx
            exact absurd hx (by simp)
          | cons q2 t2 =>
            rw [hr] at hx
            simp only [List.head?_cons, Option.map_some', Option.mem_def,
              Option.some_inj] at hx
            rw [← hx]
            exact hheadfalse q2 t2 hr)]
      have hihrest := ih ((p :: t).dropWhile (fun a => decide (a.1 = p.1)))
        hlenrest hpw_rest
        (fun a ha b hb => hc2 a (hrest_sub.subset ha) b (hrest_sub.subset hb))
        (fun a ha b hb => hc3 a (hrest_sub.subset ha) b (hrest_sub.subset hb))
      rw [hihrest]
      -- assemble the cards
      have hA : (((p :: t).takeWhile (fun a => decide (a.1 = p.1))).map
            (fun a => (a.1, a.2.1))).toFinset =
          ((((p :: t).takeWhile (fun a => decide (a.1 = p.1))).map
            (fun a => (a.1, a.2.1))).map Prod.snd).toFinset.image
            (fun b => (p.1, b)) := by
        ext x
        simp only [List.mem_toFinset, List.mem_map, Finset.mem_image]
        constructor
        · rintro ⟨q, hq, rfl⟩
          exact ⟨q.2.1, ⟨(q.1, q.2.1), ⟨q, hq, rfl⟩, rfl⟩, by
            rw [hall q hq]⟩
        · rintro ⟨b, ⟨y, ⟨q, hq, rfl⟩, rfl⟩, rfl⟩
          exact ⟨q, hq, by rw [hall q hq]⟩
      have hAcard : (((p :: t).takeWhile (fun a => decide (a.1 = p.1))).map
            (fun a => (a.1, a.2.1))).toFinset.card =
          ((((p :: t).takeWhile (fun a => decide (a.1 = p.1))).map
            (fun a => (a.1, a.2.1))).map Prod.snd).toFinset.card := by
        rw [hA]
        exact Finset.card_image_of_injective _
          (fun b1 b2 hb => by simpa using hb)
      have hdisj : Disjoint
          ((((p :: t).takeWhile (fun a => decide (a.1 = p.1))).map
            (fun a => (a.1, a.2.1))).toFinset)
          ((((p :: t).dropWhile (fun a => decide (a.1 = p.1))).map
            (fun a => (a.1, a.2.1))).toFinset) := by
        rw [Finset.disjoint_left]
        intro x hxA hxB
        rcases List.mem_map.mp (List.mem_toFinset.mp hxA) with ⟨q, hq, rfl⟩
        rcases List.mem_map.mp (List.mem_toFinset.mp hxB) with ⟨q2, hq2, hxeq⟩
        have h1 : q2.1 = q.1 := by
          have h2 := congrArg Prod.fst hxeq
          simpa using h2
        exact hrestH q2 hq2 (h1.trans (hall q hq))
      rw [List.toFinset_append, Finset.card_union_of_disjoint hdisj, hAcard]
      simp only [List.toFinset_nil, Finset.sdiff_empty]

/-- Characterization of a hit of the `stats_delta` filter function. -/
theorem statsFilterFun_some (s : QStore) (r : TxHistoryRow)
    (c : TxHistoryRow × BlockId)
    (hc : (match tx_confirming_block s r.get_txid with
           | none => none
           | some b =>
             if b.height = r.key.confirmed_height
             then some (r, b) else none) = some c) :
    c.1 = r ∧ tx_confirming_block s r.get_txid = some c.2 ∧
      c.2.height = r.key.confirmed_height := by
  cases hcc : tx_confirming_block s r.get_txid with
  | none =>
    rw [hcc] at hc
    exact absurd hc (by simp)
  | some b =>
    rw [hcc] at hc
    dsimp only at hc
    by_cases hh : b.height = r.key.confirmed_height
    · rw [if_pos hh] at hc
      cases hc
      exact ⟨rfl, rfl, hh⟩
    · rw [if_neg hh] at hc
      exact absurd hc (by simp)

/-- Characterization of the rows surviving the `stats_delta` filters. -/
theorem mem_statsScanRows (s : QStore) (scripthash start_height : Nat)
    (hb : TxHistoryRow × BlockId)
    (h : hb ∈ statsScanRows s scripthash start_height) :
    hb.1 ∈ s.histRows scripthash ∧
      tx_confirming_block s hb.1.get_txid = some hb.2 ∧
      hb.2.height = hb.1.key.confirmed_height := by
  unfold statsScanRows at h
  rcases List.mem_filterMap.mp h with ⟨r, hr, hf⟩
  rcases statsFilterFun_some s r hb hf with ⟨h1, h2, h3⟩
  rw [h1]
  exact ⟨(List.dropWhile_sublist _).subset hr, h2, h3⟩

/-- A confirming `BlockId` is consistent with the header list in both
directions: its hash resolves to its height, and the header at its height
carries its hash. -/
theorem tx_confirming_block_coherent (s : QStore) (txid : Nat) (b : BlockId)
    (h : tx_confirming_block s txid = some b) :
    height_by_hash s b.hash = some b.height ∧
      (s.headers.get? b.height).map Prod.fst = some b.hash := by
  unfold tx_confirming_block at h
  rcases Option.map_eq_some'.mp h with ⟨e, he, hbe⟩
  have hmem : e ∈ (s.confRows txid).filterMap (fun bh => headerByBlockhash s bh) :=
    List.mem_of_mem_head? he
  rcases List.mem_filterMap.mp hmem with ⟨bh, _, hfind⟩
  have hhash : e.hash = bh := by
    have hps := List.find?_some hfind
    exact of_decide_eq_true hps
  have hentries : e ∈ headerEntries s := List.mem_of_find?_eq_some hfind
  have hbhash : b.hash = bh := by
    rw [← hbe]
    exact hhash
  constructor
  · unfold height_by_hash headerByBlockhash
    rw [hbhash]
    have hfind2 : (headerEntries s).find? (fun e2 => decide (e2.hash = bh))
        = some e := hfind
    rw [hfind2, ← hbe]
    rfl
  · rcases List.mem_map.mp hentries with ⟨pr, hpr, hpre⟩
    have hget : s.headers.get? pr.1 = some pr.2 := by
      rw [List.get?_eq_getElem?]
      exact List.mem_enum_iff_getElem?.mp hpr
    have hh1 : e.height = pr.1 := by rw [← hpre]
    have hh2 : e.hash = pr.2.1 := by rw [← hpre]
    rw [← hbe]
    show (s.headers.get? e.height).map Prod.fst = some e.hash
    rw [hh1, hget, hh2]
    rfl

/-- C7: during `stats_delta`, with the history rows in their key order
(heights ascending, the DB scan invariant), `tx_count` is incremented
exactly once per distinct (confirming blockhash, txid) pair among the
surviving rows: duplicates within one block count once (the seen set),
the seen set is cleared at block transitions, and the same txid in
different blocks counts once per block. -/
theorem c7_stats_tx_count (s : QStore) (scripthash : Nat)
    (init_stats : ScriptStats) (start_height : Nat)
    (hsorted : (s.histRows scripthash).Pairwise
      (fun r1 r2 => r1.key.confirmed_height ≤ r2.key.confirmed_height)) :
    (stats_delta s scripthash init_stats start_height).1.tx_count
      = init_stats.tx_count +
        ((statsScanRows s scripthash start_height).map
          (fun hb => (hb.2.hash, hb.1.get_txid))).toFinset.card := by
  unfold stats_delta
  rw [statsDeltaLoop_tx_count]
  congr 1
  have hL3 : (statsScanRows s scripthash start_height).map
      (fun hb => (hb.2.hash, hb.1.get_txid)) =
      ((statsScanRows s scripthash start_height).map
        (fun hb => (hb.2.hash, (hb.1.get_txid, hb.2.height)))).map
        (fun a => (a.1, a.2.1)) := by
    rw [List.map_map]
    rfl
  rw [hL3]
  have hmemL3 : ∀ a ∈ (statsScanRows s scripthash start_height).map
      (fun hb => (hb.2.hash, (hb.1.get_txid, hb.2.height))),
      height_by_hash s a.1 = some a.2.2 ∧
        (s.headers.get? a.2.2).map Prod.fst = some a.1 := by
    intro a ha
    rcases List.mem_map.mp ha with ⟨hb, hhb, rfl⟩
    rcases mem_statsScanRows s scripthash start_height hb hhb with ⟨-, hconf, -⟩
    exact tx_confirming_block_coherent s hb.1.get_txid hb.2 hconf
  apply runCount_contig
    ((statsScanRows s scripthash start_height).map
      (fun hb => (hb.2.hash, (hb.1.get_txid, hb.2.height)))).length _ le_rfl
  · -- heights ascending on the surviving rows
    apply List.Pairwise.map
    · intro hb1 hb2 hle
      exact hle
    · unfold statsScanRows
      rw [List.pairwise_filterMap]
      apply List.Pairwise.imp ?_
        (hsorted.sublist (List.dropWhile_sublist _))
      intro r1 r2 hle c1 hc1 c2 hc2
      have h1 : c1.2.height = r1.key.confirmed_height :=
        (statsFilterFun_some s r1 c1 (Option.mem_def.mp hc1)).2.2
      have h2 : c2.2.height = r2.key.confirmed_height :=
        (statsFilterFun_some s r2 c2 (Option.mem_def.mp hc2)).2.2
      show c1.2.height ≤ c2.2.height
      omega
  · -- hash determines height
    intro a ha b hb hab
    rcases hmemL3 a ha with ⟨ha1, -⟩
    rcases hmemL3 b hb with ⟨hb1, -⟩
    rw [hab] at ha1
    rw [ha1] at hb1
    exact Option.some_inj.mp hb1
  · -- height determines hash
    intro a ha b hb hab
    rcases hmemL3 a ha with ⟨-, ha2⟩
    rcases hmemL3 b hb with ⟨-, hb2⟩
    rw [hab] at ha2
    rw [ha2] at hb2
    exact Option.some_inj.mp hb2

/-- Concrete store for the C7 witness: txid 9 funds twice in block 20
(height 0) and txid 11 spends in block 21 (height 1) — three surviving
rows, two distinct (block, txid) pairs. -/
def c7store : QStore :=
  { emptyStore with
      headers := [(20, ⟨0, 0⟩), (21, ⟨0, 0⟩)],
      confRows := fun txid =>
        if txid = 9 then [20] else if txid = 11 then [21] else [],
      histRows := fun scripthash =>
        if scripthash = 7 then
          [⟨⟨72, 7, 0, .Funding ⟨9, 0, 50⟩⟩⟩,
           ⟨⟨72, 7, 0, .Funding ⟨9, 1, 60⟩⟩⟩,
           ⟨⟨72, 7, 1, .Spending ⟨11, 0, 9, 0, 50⟩⟩⟩]
        else [] }

/-- C7 witness: the tx-count theorem at the concrete store. -/
theorem c7_stats_tx_count_witness :
    (stats_delta c7store 7 ScriptStats.default 0).1.tx_count
      = ScriptStats.default.tx_count +
        ((statsScanRows c7store 7 0).map
          (fun hb => (hb.2.hash, hb.1.get_txid))).toFinset.card :=
  c7_stats_tx_count c7store 7 ScriptStats.default 0 (by decide)

/-- `unique` keeps a sublist of the input stream. -/
theorem uniqueFirstAux_sublist :
    ∀ (l seen : List Nat), List.Sublist (uniqueFirstAux l seen) l := by
  intro l
  induction l with
  | nil =>
    intro seen
    exact List.Sublist.refl _
  | cons a l ih =>
    intro seen
    unfold uniqueFirstAux
    by_cases ha : a ∈ seen
    · rw [if_pos ha]
      exact (ih seen).cons a
    · rw [if_neg ha]
      exact (ih (a :: seen)).cons₂ a

/-- Membership in the deduplicated stream. -/
theorem mem_uniqueFirstAux :
    ∀ (l seen : List Nat) (x : Nat),
      x ∈ uniqueFirstAux l seen ↔ x ∈ l ∧ x ∉ seen := by
  intro l
  induction l with
  | nil =>
    intro seen x
    simp [uniqueFirstAux]
  | cons a l ih =>
    intro seen x
    unfold uniqueFirstAux
    by_cases ha : a ∈ seen
    · rw [if_pos ha, ih]
      constructor
      · rintro ⟨h1, h2⟩
        exact ⟨List.mem_cons_of_mem _ h1, h2⟩
      · rintro ⟨h1, h2⟩
        rcases List.mem_cons.mp h1 with rfl | h1
        · exact absurd ha h2
        · exact ⟨h1, h2⟩
    · rw [if_neg ha]
      rw [List.mem_cons, ih]
      constructor
      · rintro (rfl | ⟨h1, h2⟩)
        · exact ⟨List.mem_cons_self _ _, ha⟩
        · exact ⟨List.mem_cons_of_mem _ h1,
            fun hc => h2 (List.mem_cons_of_mem _ hc)⟩
      · rintro ⟨h1, h2⟩
        rcases List.mem_cons.mp h1 with rfl | h1
        · exact Or.inl rfl
        · by_cases hxa : x = a
          · exact Or.inl hxa
          · refine Or.inr ⟨h1, fun hc => ?_⟩
            rcases List.mem_cons.mp hc with h | h
            · exact hxa h
            · exact h2 h

/-- `unique` produces distinct elements. -/
theorem uniqueFirstAux_nodup :
    ∀ (l seen : List Nat), (uniqueFirstAux l seen).Nodup := by
  intro l
  induction l with
  | nil =>
    intro seen
    exact List.nodup_nil
  | cons a l ih =>
    intro seen
    unfold uniqueFirstAux
    by_cases ha : a ∈ seen
    · rw [if_pos ha]
      exact ih seen
    · rw [if_neg ha]
      refine List.nodup_cons.mpr ⟨?_, ih (a :: seen)⟩
      intro hc
      exact ((mem_uniqueFirstAux l (a :: seen) a).mp hc).2
        (List.mem_cons_self _ _)

/-- The txid assertion of `lookup_txn`: a found transaction carries the
queried txid. -/
theorem lookup_txn_found_txid {Tx : Type} (deser : List Nat → Tx)
    (txidOf : Tx → Nat) (s : QStore) (txid : Nat) (blockhash : Option Nat)
    (txn : Tx)
    (h : lookup_txn deser txidOf s txid blockhash = TxnLookup.found txn) :
    txidOf txn = txid := by
  unfold lookup_txn at h
  cases hraw : lookup_raw_txn s txid blockhash with
  | none =>
    rw [hraw] at h
    exact absurd h (by simp)
  | some rawtx =>
    rw [hraw] at h
    by_cases hid : txidOf (deser rawtx) = txid
    · simp only [if_pos hid] at h
      cases h
      exact hid
    · simp only [if_neg hid] at h
      exact absurd h (by simp)

/-- `lookup_txns` succeeds exactly by finding every body. -/
theorem lookup_txns_forall {Tx : Type} (deser : List Nat → Tx)
    (txidOf : Tx → Nat) (s : QStore) :
    ∀ (l : List (Nat × BlockId)) (txs : List Tx),
      lookup_txns deser txidOf s l = some txs →
      List.Forall₂
        (fun x y => lookup_txn deser txidOf s x.1 (some x.2.hash) =
          TxnLookup.found y) l txs := by
  intro l
  induction l with
  | nil =>
    intro txs h
    cases h
    exact List.Forall₂.nil
  | cons x l ih =>
    intro txs h
    unfold lookup_txns at h
    cases hlk : lookup_txn deser txidOf s x.1 (some x.2.hash) with
    | found txn =>
      rw [show lookup_txn deser txidOf s x.1 (some x.2.hash) =
          lookup_txn deser txidOf s x.1 (some x.2.hash) from rfl] at h
      rw [hlk] at h
      rcases Option.map_eq_some'.mp h with ⟨rest, hrest, hcons⟩
      rw [← hcons]
      exact List.Forall₂.cons hlk (ih rest hrest)
    | missing =>
      rw [hlk] at h
      exact absurd h (by simp)
    | assertFailed =>
      rw [hlk] at h
      exact absurd h (by simp)

/-- `lookup_txns` distributes over append. -/
theorem lookup_txns_append {Tx : Type} (deser : List Nat → Tx)
    (txidOf : Tx → Nat) (s : QStore) :
    ∀ (l1 l2 : List (Nat × BlockId)) (t1 t2 : List Tx),
      lookup_txns deser txidOf s l1 = some t1 →
      lookup_txns deser txidOf s l2 = some t2 →
      lookup_txns deser txidOf s (l1 ++ l2) = some (t1 ++ t2) := by
  intro l1
  induction l1 with
  | nil =>
    intro l2 t1 t2 h1 h2
    cases h1
    exact h2
  | cons x l1 ih =>
    intro l2 t1 t2 h1 h2
    obtain ⟨xt, xb⟩ := x
    unfold lookup_txns at h1
    cases hlk : lookup_txn deser txidOf s xt (some xb.hash) with
    | found txn =>
      rw [hlk] at h1
      rcases Option.map_eq_some'.mp h1 with ⟨rest, hrest, hcons⟩
      rw [← hcons]
      show (match lookup_txn deser txidOf s xt (some xb.hash) with
            | TxnLookup.found txn2 =>
              Option.map (fun l => txn2 :: l)
                (lookup_txns deser txidOf s (l1 ++ l2))
            | _ => none) = some (txn :: rest ++ t2)
      rw [hlk, ih l2 rest t2 hrest h2]
      rfl
    | missing =>
      rw [hlk] at h1
      exact absurd h1 (by simp)
    | assertFailed =>
      rw [hlk] at h1
      exact absurd h1 (by simp)

/-- The txids of the best-chain-filtered pairs are the confirmed subset of
the stream, in order. -/
theorem conf_map_fst (s : QStore) :
    ∀ (l : List Nat),
      ((l.filterMap (fun txid =>
        (tx_confirming_block s txid).map (fun b => (txid, b)))).map Prod.fst)
      = l.filter (fun txid => (tx_confirming_block s txid).isSome) := by
  intro l
  induction l with
  | nil => rfl
  | cons a l ih =>
    rw [List.filterMap_cons, List.filter_cons]
    cases hc : tx_confirming_block s a with
    | none =>
      simp only [Option.map_none', hc, Option.isSome_none,
        Bool.false_eq_true, if_false]
      exact ih
    | some b =>
      simp only [Option.map_some', hc, Option.isSome_some, if_true,
        List.map_cons]
      rw [ih]

/-- A filtered pair records its own confirming lookup. -/
theorem mem_conf_pairs (s : QStore) (l : List Nat) (x : Nat × BlockId)
    (h : x ∈ l.filterMap (fun txid =>
      (tx_confirming_block s txid).map (fun b => (txid, b)))) :
    (tx_confirming_block s x.1).map (fun b => (x.1, b)) = some x ∧ x.1 ∈ l := by
  rcases List.mem_filterMap.mp h with ⟨txid, hmem, hf⟩
  rcases Option.map_eq_some'.mp hf with ⟨b, hb, hx⟩
  have hfst : x.1 = txid := by rw [← hx]
  constructor
  · rw [hfst, hb, ← hx]
    rfl
  · rw [hfst]
    exact hmem

/-- Skipping up to an element not in the prefix lands right on it. -/
theorem dropWhile_ne_append (t : Nat) :
    ∀ (A B : List Nat), t ∉ A →
      (A ++ t :: B).dropWhile (fun x => x ≠ t) = t :: B := by
  intro A
  induction A with
  | nil =>
    intro B _
    rw [List.nil_append, List.dropWhile_cons]
    simp
  | cons a A ih =>
    intro B hA
    have hat : a ≠ t := fun hc => hA (hc ▸ List.mem_cons_self _ _)
    rw [List.cons_append, List.dropWhile_cons, if_pos (by simpa using hat)]
    exact ih B (fun hc => hA (List.mem_cons_of_mem _ hc))

/-- Taking exactly through the marked element of a split list. -/
theorem take_append_cons {α : Type} :
    ∀ (A : List α) (x : α) (B : List α),
      (A ++ x :: B).take (A.length + 1) = A ++ [x] := by
  intro A
  induction A with
  | nil =>
    intro x B
    rfl
  | cons a A ih =>
    intro x B
    rw [List.cons_append, List.length_cons]
    rw [show A.length + 1 + 1 = (A.length + 1) + 1 from rfl]
    rw [List.take_succ_cons, ih]
    rfl

/-- Taking past the marked element of a split list. -/
theorem take_append_cons_more {α : Type} :
    ∀ (A : List α) (x : α) (B : List α) (n : Nat),
      (A ++ x :: B).take (A.length + 1 + n) = A ++ x :: B.take n := by
  intro A
  induction A with
  | nil =>
    intro x B n
    rw [List.nil_append, List.length_nil]
    rw [show 0 + 1 + n = n + 1 from by omega]
    rw [List.take_succ_cons]
    rfl
  | cons a A ih =>
    intro x B n
    rw [List.cons_append, List.length_cons]
    rw [show A.length + 1 + 1 + n = (A.length + 1 + n) + 1 from by omega]
    rw [List.take_succ_cons, ih]
    rfl

/-- A pair produced by a key-recording `filterMap` records its source
element, which therefore belongs to the stream. -/
theorem mem_filterMap_pair {α β : Type} (f : α → Option (α × β))
    (hf : ∀ x y, f x = some y → y.1 = x) (S : List α) (t : α) (bt : β)
    (h : (t, bt) ∈ S.filterMap f) : f t = some (t, bt) ∧ t ∈ S := by
  rcases List.mem_filterMap.mp h with ⟨x, hx, hfx⟩
  have ht : t = x := hf x (t, bt) hfx
  subst ht
  exact ⟨hfx, hx⟩

/-- The keys of a key-recording `filterMap` are the filtered stream. -/
theorem filterMap_fst_filter {α β : Type} (f : α → Option (α × β))
    (hf : ∀ x y, f x = some y → y.1 = x) :
    ∀ S : List α,
      (S.filterMap f).map Prod.fst = S.filter (fun x => (f x).isSome) := by
  intro S
  induction S with
  | nil => rfl
  | cons a S ih =>
    rw [List.filterMap_cons, List.filter_cons]
    cases hc : f a with
    | none =>
      simpa using ih
    | some y =>
      have hy1 : y.1 = a := hf a y hc
      simp [hy1, ih]

/-- In a pair list with distinct keys, positions holding equal keys are
equal. -/
theorem nodup_map_fst_index_eq {α β : Type} (l : List (α × β))
    (hnd : (l.map Prod.fst).Nodup) (i j : Nat) (x y : α × β)
    (hi : l[i]? = some x) (hj : l[j]? = some y) (hxy : x.1 = y.1) :
    i = j := by
  have hmi : (l.map Prod.fst)[i]? = some x.1 := by
    rw [List.getElem?_map, hi]
    rfl
  have hmj : (l.map Prod.fst)[j]? = some y.1 := by
    rw [List.getElem?_map, hj]
    rfl
  rcases List.getElem?_eq_some.mp hmi with ⟨hi1, _⟩
  rcases List.getElem?_eq_some.mp hmj with ⟨hj1, _⟩
  by_contra hne
  rcases Nat.lt_or_ge i j with hij | hij
  · exact (List.nodup_iff_getElem?_ne_getElem?.mp hnd i j hij hj1)
      (by rw [hmi, hmj, hxy])
  · have hji : j < i := by omega
    exact (List.nodup_iff_getElem?_ne_getElem?.mp hnd j i hji hi1)
      (by rw [hmi, hmj, hxy])

/-- `Forall₂` ties the elements at every common position. -/
theorem forall₂_getElem {α β : Type} {R : α → β → Prop} :
    ∀ {l1 : List α} {l2 : List β}, List.Forall₂ R l1 l2 →
      ∀ (i : Nat) (a : α) (b : β),
        l1[i]? = some a → l2[i]? = some b → R a b := by
  intro l1 l2 h
  induction h with
  | nil =>
    intro i a b ha _
    exact absurd ha (by simp)
  | cons hR _ ih =>
    intro i a b ha hb
    cases i with
    | zero =>
      rw [List.getElem?_cons_zero] at ha hb
      cases ha
      cases hb
      exact hR
    | succ n =>
      rw [List.getElem?_cons_succ] at ha
      rw [List.getElem?_cons_succ] at hb
      exact ih n a b ha hb

/-- C4 core at the txid level: over a deduplicated stream, if the
`take L` truncation of the key-recording `filterMap` ends at the pair
`(t, bt)`, then the `take (2 * L)` truncation is that first page followed
by the `take L` truncation of the stream restarted strictly after `t` —
the cursor arithmetic of `ChainQuery::_history`. -/
theorem paged_take_filterMap (f : Nat → Option (Nat × BlockId))
    (hf : ∀ x y, f x = some y → y.1 = x)
    (S : List Nat) (hS : S.Nodup) (L t : Nat) (bt : BlockId)
    (hlast : ((S.filterMap f).take L).getLast? = some (t, bt)) :
    (S.filterMap f).take (2 * L)
      = (S.filterMap f).take L
        ++ (((S.dropWhile (fun x => x ≠ t)).drop 1).filterMap f).take L := by
  have hne : (S.filterMap f).take L ≠ [] := by
    intro hc
    rw [hc] at hlast
    exact absurd hlast (by simp)
  have hK1 : 0 < ((S.filterMap f).take L).length := List.length_pos.mpr hne
  have hKle : ((S.filterMap f).take L).length ≤ L := by
    rw [List.length_take]
    exact Nat.min_le_left _ _
  rw [List.getLast?_eq_getElem?] at hlast
  have hlt : ((S.filterMap f).take L).length - 1 < L := by omega
  rw [List.getElem?_take_of_lt hlt] at hlast
  rcases List.getElem?_eq_some.mp hlast with ⟨hlt2, hget⟩
  have hmem : (t, bt) ∈ S.filterMap f := hget ▸ List.getElem_mem hlt2
  have hpair := mem_filterMap_pair f hf S t bt hmem
  rcases List.append_of_mem hpair.2 with ⟨A, B, hAB⟩
  subst hAB
  have htA : t ∉ A := fun hc =>
    (List.disjoint_of_nodup_append hS) hc (List.mem_cons_self _ _)
  have hsplit : (A ++ t :: B).filterMap f
      = A.filterMap f ++ (t, bt) :: B.filterMap f := by
    rw [List.filterMap_append, List.filterMap_cons_some hpair.1]
  have hnd : (((A ++ t :: B).filterMap f).map Prod.fst).Nodup := by
    rw [filterMap_fst_filter f hf]
    exact hS.filter _
  have hidxA : ((A ++ t :: B).filterMap f)[(A.filterMap f).length]?
      = some (t, bt) := by
    rw [hsplit, List.getElem?_append_right (Nat.le_refl _)]
    simp
  have hKA : (((A ++ t :: B).filterMap f).take L).length - 1
      = (A.filterMap f).length :=
    nodup_map_fst_index_eq _ hnd _ _ _ _ hlast hidxA rfl
  have hlenconf : ((A ++ t :: B).filterMap f).length
      = (A.filterMap f).length + 1 + (B.filterMap f).length := by
    rw [hsplit, List.length_append, List.length_cons]
    omega
  have hKmin : (((A ++ t :: B).filterMap f).take L).length
      = min L ((A ++ t :: B).filterMap f).length := by
    rw [List.length_take]
  have hdrop : ((A ++ t :: B).dropWhile (fun x => x ≠ t)).drop 1 = B := by
    rw [dropWhile_ne_append t A B htA]
    rfl
  rw [hdrop]
  by_cases hcase : L ≤ ((A ++ t :: B).filterMap f).length
  · have hKL : (((A ++ t :: B).filterMap f).take L).length = L := by omega
    have hA1 : (A.filterMap f).length + 1 = L := by omega
    calc ((A ++ t :: B).filterMap f).take (2 * L)
        = (A.filterMap f ++ (t, bt) :: B.filterMap f).take
            ((A.filterMap f).length + 1 + L) := by
          rw [hsplit]
          congr 1
          omega
      _ = A.filterMap f ++ (t, bt) :: (B.filterMap f).take L :=
          take_append_cons_more _ _ _ _
      _ = ((A ++ t :: B).filterMap f).take L ++ (B.filterMap f).take L := by
          rw [hsplit, ← hA1, take_append_cons]
          simp
  · push_neg at hcase
    have hK : (((A ++ t :: B).filterMap f).take L).length
        = ((A ++ t :: B).filterMap f).length := by omega
    have hB0 : (B.filterMap f).length = 0 := by omega
    have hBnil : B.filterMap f = [] := List.length_eq_zero.mp hB0
    have h2L : ((A ++ t :: B).filterMap f).length ≤ 2 * L := by omega
    have h1L : ((A ++ t :: B).filterMap f).length ≤ L := by omega
    rw [hBnil, List.take_of_length_le h2L, List.take_of_length_le h1L]
    simp

/-- Success characterization of `history`: the pipeline's txids resolve in
bulk and the result is the zip of the bodies with their confirming
blocks. -/
theorem history_eq_some_iff {Tx : Type} (deser : List Nat → Tx)
    (txidOf : Tx → Nat) (s : QStore) (scripthash : Nat)
    (last_seen : Option Nat) (limit : Nat) (p : List (Tx × BlockId)) :
    history deser txidOf s scripthash last_seen limit = some p ↔
      ∃ txs, lookup_txns deser txidOf s
          (historyTxsConf s scripthash last_seen limit) = some txs
        ∧ (txs.zip (historyTxsConf s scripthash last_seen limit)).map
            (fun q => (q.1, q.2.2)) = p := by
  constructor
  · intro h
    rcases Option.map_eq_some'.mp h with ⟨txs, h1, h2⟩
    exact ⟨txs, h1, h2⟩
  · rintro ⟨txs, h1, h2⟩
    show (lookup_txns deser txidOf s
        (historyTxsConf s scripthash last_seen limit)).map
      (fun txs => (txs.zip
        (historyTxsConf s scripthash last_seen limit)).map
          (fun q => (q.1, q.2.2))) = some p
    rw [h1, Option.map_some']
    exact congrArg some h2

/-- C4: pagination fidelity of `ChainQuery::_history` — if the first page
`history(sh, None, L)` ends at a transaction with txid `t = txidOf tx` and
the cursor page `history(sh, Some t, L)` also succeeds, then the two pages
concatenated are exactly `history(sh, None, 2*L)`; the cursor element is
excluded from the second page by the `skip_while`/`skip(1)` logic. -/
theorem c4_pagination (Tx : Type) (deser : List Nat → Tx) (txidOf : Tx → Nat)
    (s : QStore) (scripthash L : Nat) (p1 p2 : List (Tx × BlockId))
    (tx : Tx) (bid : BlockId)
    (hp1 : history deser txidOf s scripthash none L = some p1)
    (hlast : p1.getLast? = some (tx, bid))
    (hp2 : history deser txidOf s scripthash (some (txidOf tx)) L = some p2) :
    history deser txidOf s scripthash none (2 * L) = some (p1 ++ p2) := by
  rcases (history_eq_some_iff deser txidOf s scripthash none L p1).mp hp1
    with ⟨txs1, hlk1, hz1⟩
  rcases (history_eq_some_iff deser txidOf s scripthash
      (some (txidOf tx)) L p2).mp hp2 with ⟨txs2, hlk2, hz2⟩
  have hF1 := lookup_txns_forall deser txidOf s _ txs1 hlk1
  have hlen1 := hF1.length_eq
  have hp1len : p1.length = txs1.length := by
    rw [← hz1, List.length_map, List.length_zip]
    omega
  rw [List.getLast?_eq_getElem?] at hlast
  have hzk : ((txs1.zip (historyTxsConf s scripthash none L)).map
      (fun q => (q.1, q.2.2)))[p1.length - 1]? = some (tx, bid) := by
    rw [hz1]
    exact hlast
  rw [List.getElem?_map] at hzk
  rcases Option.map_eq_some'.mp hzk with ⟨z, hzsome, hgz⟩
  have hgz1 : z.1 = tx := congrArg Prod.fst hgz
  have hgz2 : z.2.2 = bid := congrArg Prod.snd hgz
  have hzz := List.getElem?_zip_eq_some.mp hzsome
  have hR := forall₂_getElem hF1 (p1.length - 1) z.2 z.1 hzz.2 hzz.1
  have hid : txidOf z.1 = z.2.1 :=
    lookup_txn_found_txid deser txidOf s z.2.1 (some z.2.2.hash) z.1 hR
  have hz2eq : z.2 = (txidOf tx, bid) := by
    rw [Prod.ext_iff]
    refine ⟨?_, hgz2⟩
    rw [← hgz1]
    exact hid.symm
  have hclast : (historyTxsConf s scripthash none L).getLast?
      = some (txidOf tx, bid) := by
    rw [List.getLast?_eq_getElem?]
    have hlC : (historyTxsConf s scripthash none L).length - 1
        = p1.length - 1 := by
      omega
    rw [hlC, hzz.2, hz2eq]
  have hfprop : ∀ (x : Nat) (y : Nat × BlockId),
      (fun txid => (tx_confirming_block s txid).map (fun b => (txid, b))) x
        = some y → y.1 = x := by
    intro x y h
    rcases Option.map_eq_some'.mp h with ⟨b, hb, hy⟩
    rw [← hy]
  have hSnd : (uniqueFirst ((histScanReverse s scripthash).map
      TxHistoryRow.get_txid)).Nodup := uniqueFirstAux_nodup _ []
  have hcore := paged_take_filterMap
    (fun txid => (tx_confirming_block s txid).map (fun b => (txid, b))) hfprop
    (uniqueFirst ((histScanReverse s scripthash).map TxHistoryRow.get_txid))
    hSnd L (txidOf tx) bid hclast
  have hsplitC : historyTxsConf s scripthash none (2 * L)
      = historyTxsConf s scripthash none L
        ++ historyTxsConf s scripthash (some (txidOf tx)) L := hcore
  refine (history_eq_some_iff deser txidOf s scripthash none (2 * L)
    (p1 ++ p2)).mpr ?_
  refine ⟨txs1 ++ txs2, ?_, ?_⟩
  · rw [hsplitC]
    exact lookup_txns_append deser txidOf s _ _ txs1 txs2 hlk1 hlk2
  · rw [hsplitC, List.zip_append hlen1.symm, List.map_append, hz1, hz2]

/-- Concrete store for the C4 witness: scripthash 77 has history rows for
txid 11 (height 0, block 20) and txid 12 (height 1, block 21); bodies of
both transactions are stored in the `T` rows. -/
def c4store : QStore :=
  { emptyStore with
      headers := [(20, ⟨0, 0⟩), (21, ⟨0, 0⟩)],
      confRows := fun txid =>
        if txid = 11 then [20] else if txid = 12 then [21] else [],
      txRows := fun txid =>
        if txid = 11 then some [11]
        else if txid = 12 then some [12] else none,
      histRows := fun scripthash =>
        if scripthash = 77 then
          [⟨⟨72, 77, 0, .Funding ⟨11, 0, 50⟩⟩⟩,
           ⟨⟨72, 77, 1, .Funding ⟨12, 0, 60⟩⟩⟩]
        else [] }

/-- C4 witness: at the concrete store the one-element first page ends at
txid 12, the cursor page returns txid 11, and the double-limit page is
their concatenation. -/
theorem c4_pagination_witness :
    history (fun l => l.headI) (fun n => n) c4store 77 none (2 * 1)
      = some ([(12, ⟨1, 21, 0⟩)] ++ [(11, ⟨0, 20, 0⟩)]) :=
  c4_pagination Nat (fun l => l.headI) (fun n => n) c4store 77 1
    [(12, ⟨1, 21, 0⟩)] [(11, ⟨0, 20, 0⟩)] 12 ⟨1, 21, 0⟩ rfl rfl rfl

/-- `natToBytesBE` always emits exactly `w` bytes. -/
theorem natToBytesBE_length : ∀ (w n : Nat), (natToBytesBE w n).length = w := by
  intro w
  induction w with
  | zero =>
    intro n
    rfl
  | succ w ih =>
    intro n
    simp only [natToBytesBE, List.length_cons, ih]

/-- Big-endian fixed-width encoding is strictly monotone under the
byte-lexicographic order. -/
theorem natToBytesBE_lt_lex : ∀ (w a b : Nat), a < b → b < 256 ^ w →
    List.Lex (· < ·) (natToBytesBE w a) (natToBytesBE w b) := by
  intro w
  induction w with
  | zero =>
    intro a b hab hb
    simp only [pow_zero] at hb
    omega
  | succ w ih =>
    intro a b hab hb
    have hpow : 0 < 256 ^ w := by positivity
    have hb' : b < 256 ^ w * 256 := by
      rw [← pow_succ]
      exact hb
    have hqb : b / 256 ^ w < 256 := Nat.div_lt_of_lt_mul hb'
    have hqa : a / 256 ^ w < 256 :=
      lt_of_le_of_lt (Nat.div_le_div_right (le_of_lt hab)) hqb
    have hma : a / 256 ^ w % 256 = a / 256 ^ w := Nat.mod_eq_of_lt hqa
    have hmb : b / 256 ^ w % 256 = b / 256 ^ w := Nat.mod_eq_of_lt hqb
    show List.Lex (· < ·)
      (a / 256 ^ w % 256 :: natToBytesBE w (a % 256 ^ w))
      (b / 256 ^ w % 256 :: natToBytesBE w (b % 256 ^ w))
    rcases Nat.lt_or_ge (a / 256 ^ w) (b / 256 ^ w) with hq | hq
    · exact List.Lex.rel (by rw [hma, hmb]; exact hq)
    · have hq2 : a / 256 ^ w = b / 256 ^ w :=
        Nat.le_antisymm (Nat.div_le_div_right (le_of_lt hab)) hq
      have hdm1 := Nat.div_add_mod a (256 ^ w)
      have hdm2 := Nat.div_add_mod b (256 ^ w)
      rw [hq2] at hdm1
      generalize hX : 256 ^ w * (b / 256 ^ w) = X at hdm1 hdm2
      have hrb : b % 256 ^ w < 256 ^ w := Nat.mod_lt _ hpow
      have hlt2 : a % 256 ^ w < b % 256 ^ w := by omega
      rw [hq2]
      exact List.Lex.cons (ih _ _ hlt2 hrb)

/-- The strict byte-lexicographic order is asymmetric. -/
theorem lex_asymm : ∀ (xs ys : List Nat),
    List.Lex (· < ·) xs ys → List.Lex (· < ·) ys xs → False := by
  intro xs ys h1
  induction h1 with
  | nil =>
    intro h2
    cases h2
  | cons h ih =>
    intro h2
    cases h2 with
    | cons h3 => exact ih h3
    | rel hr => exact absurd hr (lt_irrefl _)
  | rel hr =>
    intro h2
    cases h2 with
    | cons h3 => exact absurd hr (lt_irrefl _)
    | rel hr2 => omega

/-- A lexicographic comparison decided inside equal-length segments
survives appending arbitrary suffixes. -/
theorem lex_append_of_lex : ∀ (u v x y : List Nat), u.length = v.length →
    List.Lex (· < ·) u v → List.Lex (· < ·) (u ++ x) (v ++ y) := by
  intro u v x y hlen huv
  induction huv with
  | nil =>
    simp only [List.length_nil, List.length_cons] at hlen
    omega
  | cons h ih =>
    simp only [List.length_cons] at hlen
    exact List.Lex.cons (ih (by omega))
  | rel h =>
    exact List.Lex.rel h

/-- A lexicographic comparison of equal-length middles survives a shared
prefix and arbitrary suffixes. -/
theorem lex_append_middle : ∀ (p u v x y : List Nat), u.length = v.length →
    List.Lex (· < ·) u v →
    List.Lex (· < ·) (p ++ u ++ x) (p ++ v ++ y) := by
  intro p
  induction p with
  | nil =>
    intro u v x y hlen huv
    simpa using lex_append_of_lex u v x y hlen huv
  | cons a p ih =>
    intro u v x y hlen huv
    simp only [List.cons_append]
    exact List.Lex.cons (ih u v x y hlen huv)

/-- C5 key fact: for `H` keys of one scripthash family (equal code and
hash bytes), byte-lexicographic key order bounds the big-endian encoded
`confirmed_height` fields numerically. -/
theorem encodeKey_lt_height_le (k1 k2 : TxHistoryKey)
    (hcode : k1.code = k2.code) (hhash : k1.hash = k2.hash)
    (h1 : k1.confirmed_height < 2 ^ 32) (hlex : keyLt (encodeTxHistoryKey k1)
      (encodeTxHistoryKey k2)) :
    k1.confirmed_height ≤ k2.confirmed_height := by
  by_contra hgt
  push_neg at hgt
  have h256 : (256 : Nat) ^ 4 = 2 ^ 32 := by norm_num
  have hlex2 : keyLt (encodeTxHistoryKey k2) (encodeTxHistoryKey k1) := by
    unfold keyLt encodeTxHistoryKey
    rw [hcode, hhash]
    exact lex_append_middle
      (natToBytesBE 1 k2.code ++ natToBytesBE 32 k2.hash)
      (natToBytesBE 4 k2.confirmed_height)
      (natToBytesBE 4 k1.confirmed_height)
      (encodeTxHistoryInfo k2.txinfo)
      (encodeTxHistoryInfo k1.txinfo)
      (by rw [natToBytesBE_length, natToBytesBE_length])
      (natToBytesBE_lt_lex 4 _ _ hgt (by rw [h256]; exact h1))
  exact lex_asymm _ _ hlex hlex2

/-- A forward history scan from height 0 keeps the whole row family. -/
theorem historyScanFrom_zero (s : QStore) (sh : Nat) :
    historyScanFrom s sh 0 = s.histRows sh := by
  unfold historyScanFrom
  cases h : s.histRows sh with
  | nil => rfl
  | cons r rest =>
    rw [List.dropWhile_cons]
    simp

/-- The cursor skip keeps a sublist of the txid stream. -/
theorem skipUntilPast_sublist (last_seen : Option Nat) (S : List Nat) :
    List.Sublist (skipUntilPast last_seen S) S := by
  cases last_seen with
  | none => exact List.Sublist.refl _
  | some t =>
    exact List.Sublist.trans (List.drop_sublist 1 _) (List.dropWhile_sublist _)

/-- Projecting the confirming heights out of the zip recovers the
pipeline's height stream. -/
theorem zip_proj_heights {Tx : Type} :
    ∀ (ts : List Tx) (C : List (Nat × BlockId)), ts.length = C.length →
      ((ts.zip C).map (fun q => (q.1, q.2.2))).map (fun q => q.2.height)
        = C.map (fun q => q.2.height) := by
  intro ts
  induction ts with
  | nil =>
    intro C hC
    rw [(List.length_eq_zero.mp hC.symm : C = [])]
    rfl
  | cons a ts ih =>
    intro C hC
    cases C with
    | nil => simp at hC
    | cons c C =>
      simp only [List.zip_cons_cons, List.map_cons]
      rw [ih C (by simp only [List.length_cons] at hC; omega)]

/-- C5 pipeline transfer: if the scanned rows are pairwise ordered by the
heights of their confirming blocks, then so is any txid-stream pipeline
built from them by dedup/skip (a sublist), the best-chain `filterMap`,
`take limit` and the height projection. -/
theorem pipeline_pairwise (s : QStore) (rows : List TxHistoryRow)
    (ord : Nat → Nat → Prop)
    (hrows : rows.Pairwise (fun r1 r2 => ∀ b1 b2,
      tx_confirming_block s r1.get_txid = some b1 →
      tx_confirming_block s r2.get_txid = some b2 →
      ord b1.height b2.height))
    (txids : List Nat)
    (hsub : List.Sublist txids (rows.map TxHistoryRow.get_txid))
    (limit : Nat) :
    (((txids.filterMap (fun txid =>
        (tx_confirming_block s txid).map (fun b => (txid, b)))).take limit).map
      (fun q => q.2.height)).Pairwise ord := by
  have h1 : (rows.map TxHistoryRow.get_txid).Pairwise (fun t1 t2 => ∀ b1 b2,
      tx_confirming_block s t1 = some b1 →
      tx_confirming_block s t2 = some b2 → ord b1.height b2.height) :=
    List.pairwise_map.mpr hrows
  have h2 := List.Pairwise.sublist hsub h1
  have h3 : (txids.filterMap (fun txid =>
      (tx_confirming_block s txid).map (fun b => (txid, b)))).Pairwise
      (fun q1 q2 => ord q1.2.height q2.2.height) := by
    rw [List.pairwise_filterMap]
    refine h2.imp ?_
    intro t1 t2 hR
    intro b hb b2 hb2
    rcases Option.map_eq_some'.mp (Option.mem_def.mp hb) with ⟨c1, hc1, he1⟩
    rcases Option.map_eq_some'.mp (Option.mem_def.mp hb2) with ⟨c2, hc2, he2⟩
    rw [← he1, ← he2]
    exact hR c1 c2 hc1 hc2
  have h4 := List.Pairwise.sublist (List.take_sublist limit _) h3
  exact List.pairwise_map.mpr h4

/-- Concrete store for the C5 counterexample: scripthash 77 has two rows
stored at heights 5 and 6 (keys strictly ascending byte-lexicographically),
but both rows are stale after a reorg — txid 1 now confirms at height 1
and txid 2 at height 0. -/
def c5cex : QStore :=
  { emptyStore with
      headers := [(31, ⟨0, 0⟩), (30, ⟨0, 0⟩)],
      confRows := fun txid =>
        if txid = 1 then [30] else if txid = 2 then [31] else [],
      histRows := fun scripthash =>
        if scripthash = 77 then
          [⟨⟨72, 77, 5, .Funding ⟨1, 0, 10⟩⟩⟩,
           ⟨⟨72, 77, 6, .Funding ⟨2, 0, 10⟩⟩⟩]
        else [] }

/-- C5 counterexample: the `H` rows of scripthash 77 are stored in strict
ascending byte-lexicographic key order (the big-endian invariant the claim
invokes), yet `history_txids` returns confirmed heights `[1, 0]`, which is
not ascending — the returned heights come from `tx_confirming_block`, not
from the scan keys, and the rows are stale. -/
theorem c5_counterexample :
    (c5cex.histRows 77).Pairwise (fun r1 r2 =>
        keyLt (encodeTxHistoryKey r1.key) (encodeTxHistoryKey r2.key))
    ∧ (history_txids c5cex 77 10).map (fun q => q.2.height) = [1, 0]
    ∧ ¬ ((history_txids c5cex 77 10).map (fun q => q.2.height)).Pairwise
        (fun a b => a ≤ b) := by
  refine ⟨?_, ?_, ?_⟩
  · decide
  · rfl
  · decide

/-- C5: with well-formed keys (code 72, the scripthash, height below
2^32), rows stored in strict byte-lexicographic order of their big-endian
encoded keys — the KV invariant the claim invokes — and no stale rows
(every row's stored height matches its txid's current confirming height),
`history_txids` returns ascending confirmed heights and every successful
`history` call returns descending confirmed heights. Without the no-stale
hypothesis the order claim fails (`c5_counterexample`). -/
theorem c5_history_order (s : QStore) (scripthash limit : Nat)
    (last_seen : Option Nat)
    (hwf : ∀ r ∈ s.histRows scripthash, r.key.code = 72 ∧
      r.key.hash = scripthash ∧ r.key.confirmed_height < 2 ^ 32)
    (hsorted : (s.histRows scripthash).Pairwise (fun r1 r2 =>
      keyLt (encodeTxHistoryKey r1.key) (encodeTxHistoryKey r2.key)))
    (hnostale : ∀ r ∈ s.histRows scripthash,
      (tx_confirming_block s r.get_txid).all
        (fun b => b.height = r.key.confirmed_height) = true) :
    ((history_txids s scripthash limit).map (fun q => q.2.height)).Pairwise
      (fun a b => a ≤ b)
    ∧ ∀ (Tx : Type) (deser : List Nat → Tx) (txidOf : Tx → Nat)
        (l : List (Tx × BlockId)),
        history deser txidOf s scripthash last_seen limit = some l →
        (l.map (fun q => q.2.height)).Pairwise (fun a b => b ≤ a) := by
  have hH : (s.histRows scripthash).Pairwise (fun r1 r2 =>
      r1.key.confirmed_height ≤ r2.key.confirmed_height) := by
    refine List.Pairwise.imp_of_mem ?_ hsorted
    intro r1 r2 hm1 hm2 hlex
    rcases hwf r1 hm1 with ⟨hc1, hh1, hb1⟩
    rcases hwf r2 hm2 with ⟨hc2, hh2, _⟩
    exact encodeKey_lt_height_le r1.key r2.key (by rw [hc1, hc2])
      (by rw [hh1, hh2]) hb1 hlex
  have hConfAsc : (s.histRows scripthash).Pairwise (fun r1 r2 => ∀ b1 b2,
      tx_confirming_block s r1.get_txid = some b1 →
      tx_confirming_block s r2.get_txid = some b2 →
      b1.height ≤ b2.height) := by
    refine List.Pairwise.imp_of_mem ?_ hH
    intro r1 r2 hm1 hm2 hle b1 b2 hcb1 hcb2
    have e1 := hnostale r1 hm1
    rw [hcb1] at e1
    have e2 := hnostale r2 hm2
    rw [hcb2] at e2
    simp only [Option.all] at e1 e2
    have e3 : b1.height = r1.key.confirmed_height := by simpa using e1
    have e4 : b2.height = r2.key.confirmed_height := by simpa using e2
    omega
  constructor
  · exact pipeline_pairwise s (s.histRows scripthash) (fun a b => a ≤ b)
      hConfAsc
      (uniqueFirst ((historyScanFrom s scripthash 0).map
        TxHistoryRow.get_txid))
      (by rw [historyScanFrom_zero]; exact uniqueFirstAux_sublist _ [])
      limit
  · intro Tx deser txidOf l hl
    rcases (history_eq_some_iff deser txidOf s scripthash last_seen limit
      l).mp hl with ⟨txs, hlk, hz⟩
    have hflen := (lookup_txns_forall deser txidOf s _ txs hlk).length_eq
    have hmap : l.map (fun q => q.2.height)
        = (historyTxsConf s scripthash last_seen limit).map
          (fun q => q.2.height) := by
      rw [← hz]
      exact zip_proj_heights txs _ hflen.symm
    rw [hmap]
    have hrev : (histScanReverse s scripthash).Pairwise (fun r1 r2 =>
        ∀ b1 b2,
        tx_confirming_block s r1.get_txid = some b1 →
        tx_confirming_block s r2.get_txid = some b2 →
        b2.height ≤ b1.height) := by
      unfold histScanReverse
      rw [List.pairwise_reverse]
      refine (List.Pairwise.sublist (List.filter_sublist _) hConfAsc).imp ?_
      intro r1 r2 h12
      intro b1 b2 hb1 hb2
      exact h12 b2 b1 hb2 hb1
    exact pipeline_pairwise s (histScanReverse s scripthash)
      (fun a b => b ≤ a) hrev
      (skipUntilPast last_seen (uniqueFirst
        ((histScanReverse s scripthash).map TxHistoryRow.get_txid)))
      (List.Sublist.trans (skipUntilPast_sublist _ _)
        (uniqueFirstAux_sublist _ []))
      limit

/-- Concrete store for the C5 witness: two fresh (non-stale) rows for
scripthash 77 confirming at heights 0 and 1. -/
def c5wstore : QStore :=
  { emptyStore with
      headers := [(20, ⟨0, 0⟩), (21, ⟨0, 0⟩)],
      confRows := fun txid =>
        if txid = 11 then [20] else if txid = 12 then [21] else [],
      txRows := fun txid =>
        if txid = 11 then some [11]
        else if txid = 12 then some [12] else none,
      histRows := fun scripthash =>
        if scripthash = 77 then
          [⟨⟨72, 77, 0, .Funding ⟨11, 0, 50⟩⟩⟩,
           ⟨⟨72, 77, 1, .Funding ⟨12, 0, 60⟩⟩⟩]
        else [] }

/-- C5 witness: the order theorem at the concrete non-stale store —
`history_txids` heights ascend and the concrete descending `history` page
is ordered. -/
theorem c5_history_order_witness :
    ((history_txids c5wstore 77 10).map (fun q => q.2.height)).Pairwise
      (fun a b => a ≤ b)
    ∧ (([((12 : Nat), (⟨1, 21, 0⟩ : BlockId)), (11, ⟨0, 20, 0⟩)].map
        (fun q => q.2.height)).Pairwise (fun a b => b ≤ a)) :=
  ⟨(c5_history_order c5wstore 77 10 none (by decide) (by decide)
      (by decide)).1,
   (c5_history_order c5wstore 77 10 none (by decide) (by decide)
      (by decide)).2 Nat (fun l => l.headI) (fun n => n)
      [(12, ⟨1, 21, 0⟩), (11, ⟨0, 20, 0⟩)] rfl⟩
